import Mathlib

/-!
Verification of the sync core of the `go-proj` repository against its
specification.  The Go code is shallowly embedded: the Dropbox `WalkDiffs`
diff engine (the variant taking a skip callback, with its size check and
its shadowed-`err` control flow reproduced exactly), the streaming
`ContentHash`, and the `ProjectRepository.Upload` / `Pull` reconcilers.
Bytes are `Nat`s, Go maps are association lists built with the same
insert/delete operations the code performs, the SHA-256 digest is an
abstract function parameter, and callbacks are state transformers that
may return an error.
-/

namespace GoProj

/-- Bytes of a file, each entry one byte. -/
abbrev Bytes := List Nat

/-- Go `error` values, modelled by their message string. -/
abbrev Err := String

/-! ## Association-list model of Go maps -/

/-- Lookup in an association list; mirrors `m[k]` on a Go map. -/
def lookupKey {β : Type} : List (String × β) → String → Option β
  | [], _ => none
  | (k', v) :: rest, k => if k' = k then some v else lookupKey rest k

/-- Removal from an association list; mirrors `delete(m, k)` on a Go map
(Go map keys are unique, so removing every binding of `k` agrees). -/
def removeKey {β : Type} : List (String × β) → String → List (String × β)
  | [], _ => []
  | (k', v) :: rest, k =>
      if k' = k then removeKey rest k else (k', v) :: removeKey rest k

/-- Insert-or-overwrite; mirrors `m[k] = v` on a Go map. -/
def setKey {β : Type} : List (String × β) → String → β → List (String × β)
  | [], k, v => [(k, v)]
  | (k', v') :: rest, k, v =>
      if k' = k then (k, v) :: rest else (k', v') :: setKey rest k v

theorem lookupKey_removeKey {β : Type} (l : List (String × β)) (k p : String) :
    lookupKey (removeKey l k) p = if p = k then none else lookupKey l p := by
  induction l with
  | nil => simp [removeKey, lookupKey]
  | cons e rest ih =>
      obtain ⟨k', v⟩ := e
      by_cases h1 : k' = k
      · subst h1
        by_cases h2 : p = k'
        · subst h2
          simp [removeKey, ih]
        · have h3 : ¬ k' = p := fun hh => h2 hh.symm
          simp [removeKey, lookupKey, ih, h2, h3]
      · by_cases h2 : k' = p
        · subst h2
          have hpk : ¬ k' = k := h1
          simp [removeKey, lookupKey, h1, hpk]
        · simp [removeKey, lookupKey, h1, h2, ih]

theorem lookupKey_setKey {β : Type} (l : List (String × β)) (k p : String) (v : β) :
    lookupKey (setKey l k v) p = if p = k then some v else lookupKey l p := by
  induction l with
  | nil =>
      by_cases h : p = k
      · simp [setKey, lookupKey, h]
      · have h3 : ¬ k = p := fun hh => h hh.symm
        simp [setKey, lookupKey, h, h3]
  | cons e rest ih =>
      obtain ⟨k', v'⟩ := e
      by_cases h1 : k' = k
      · subst h1
        by_cases h2 : p = k'
        · simp [setKey, lookupKey, h2]
        · have h3 : ¬ k' = p := fun hh => h2 hh.symm
          simp [setKey, lookupKey, h2, h3]
      · by_cases h2 : k' = p
        · subst h2
          have hpk : ¬ k' = k := h1
          simp [setKey, lookupKey, h1, hpk]
        · simp [setKey, lookupKey, h1, h2, ih]

theorem mem_of_lookupKey_some {β : Type} {l : List (String × β)} {k : String} {v : β}
    (h : lookupKey l k = some v) : (k, v) ∈ l := by
  induction l with
  | nil => simp [lookupKey] at h
  | cons e rest ih =>
      obtain ⟨k', v'⟩ := e
      by_cases h1 : k' = k
      · subst h1
        simp [lookupKey] at h
        simp [h]
      · simp [lookupKey, h1] at h
        exact List.mem_cons_of_mem _ (ih h)

theorem lookupKey_isSome_of_mem {β : Type} {l : List (String × β)} {k : String} {v : β}
    (h : (k, v) ∈ l) : (lookupKey l k).isSome := by
  induction l with
  | nil => simp at h
  | cons e rest ih =>
      obtain ⟨k', v'⟩ := e
      by_cases h1 : k' = k
      · simp [lookupKey, h1]
      · rcases List.mem_cons.mp h with h2 | h2
        · rw [Prod.ext_iff] at h2
          exact absurd h2.1.symm h1
        · simpa [lookupKey, h1] using ih h2

theorem lookupKey_eq_none {β : Type} {l : List (String × β)} {k : String}
    (h : ∀ v, (k, v) ∉ l) : lookupKey l k = none := by
  cases hl : lookupKey l k with
  | none => rfl
  | some v => exact absurd (mem_of_lookupKey_some hl) (h v)

theorem lookupKey_append {β : Type} (l₁ l₂ : List (String × β)) (k : String) :
    lookupKey (l₁ ++ l₂) k =
      (match lookupKey l₁ k with
       | some v => some v
       | none => lookupKey l₂ k) := by
  induction l₁ with
  | nil => simp [lookupKey]
  | cons e rest ih =>
      obtain ⟨k', v⟩ := e
      by_cases h1 : k' = k <;> simp [lookupKey, h1, ih]

theorem setKey_of_lookup_none {β : Type} {l : List (String × β)} {k : String}
    (h : lookupKey l k = none) (v : β) : setKey l k v = l ++ [(k, v)] := by
  induction l with
  | nil => simp [setKey]
  | cons e rest ih =>
      obtain ⟨k', v'⟩ := e
      by_cases h1 : k' = k
      · simp [lookupKey, h1] at h
      · simp [lookupKey, h1] at h
        simp [setKey, h1, ih h]

theorem keys_removeKey_sublist {β : Type} (l : List (String × β)) (k : String) :
    ((removeKey l k).map Prod.fst).Sublist (l.map Prod.fst) := by
  induction l with
  | nil => simp [removeKey]
  | cons e rest ih =>
      obtain ⟨k', v⟩ := e
      by_cases h1 : k' = k
      · subst h1
        simp only [removeKey, if_pos rfl, List.map_cons]
        exact List.Sublist.cons k' ih
      · simp only [removeKey, if_neg h1, List.map_cons]
        exact List.Sublist.cons₂ k' ih

theorem keys_removeKey_nodup {β : Type} {l : List (String × β)} (k : String)
    (h : (l.map Prod.fst).Nodup) : ((removeKey l k).map Prod.fst).Nodup :=
  h.sublist (keys_removeKey_sublist l k)

theorem keys_setKey {β : Type} (l : List (String × β)) (k : String) (v : β) (p : String) :
    p ∈ (setKey l k v).map Prod.fst ↔ p = k ∨ p ∈ l.map Prod.fst := by
  induction l with
  | nil =>
      simp [setKey]
  | cons e rest ih =>
      obtain ⟨k', v'⟩ := e
      by_cases h1 : k' = k
      · subst h1
        have hset : setKey ((k', v') :: rest) k' v = (k', v) :: rest := by
          simp [setKey]
        rw [hset]
        simp only [List.map_cons, List.mem_cons]
        tauto
      · simp only [setKey, if_neg h1, List.map_cons, List.mem_cons, ih]
        tauto

theorem keys_setKey_nodup {β : Type} {l : List (String × β)} {k : String} (v : β)
    (h : (l.map Prod.fst).Nodup) : ((setKey l k v).map Prod.fst).Nodup := by
  induction l with
  | nil => simp [setKey]
  | cons e rest ih =>
      obtain ⟨k', v'⟩ := e
      simp only [List.map_cons, List.nodup_cons] at h
      by_cases h1 : k' = k
      · subst h1
        have hset : setKey ((k', v') :: rest) k' v = (k', v) :: rest := by
          simp [setKey]
        rw [hset]
        simp only [List.map_cons, List.nodup_cons]
        exact ⟨h.1, h.2⟩
      · simp only [setKey, if_neg h1, List.map_cons, List.nodup_cons]
        refine ⟨fun hc => ?_, ih h.2⟩
        rcases (keys_setKey rest k v k').mp hc with h2 | h2
        · exact h1 h2
        · exact h.1 h2

/-! ## ContentHash (src/unnamed/part_005, lines 183-207)

The Go function reads the stream with `r.Read(buf)` into a 4 MiB buffer,
hashes each read's bytes (`buf[:n]`, when `n > 0`) with SHA-256, feeds the
digests into an accumulating SHA-256, and loops only while the previous
read returned exactly `hashBlockSize` bytes with a nil error.  The reader
is modelled as the list of byte chunks its successive `Read` calls yield
(a chunk longer than the buffer is served buffer-size bytes at a time;
an exhausted reader yields `(0, io.EOF)`).  The SHA-256 digest itself is
an abstract parameter `H`. -/

def hashBlockSize : Nat := 4 * 1024 * 1024

/-- Successive results of `r.Read(buf)` consumed by the `ContentHash` loop:
it stops after the first read that returns fewer than `hashBlockSize`
bytes. -/
def readsUntilShort : List Bytes → List Bytes
  | [] => []
  | c :: cs =>
      if c.length < hashBlockSize then [c]
      else if c.length = hashBlockSize then c :: readsUntilShort cs
      else c.take hashBlockSize :: readsUntilShort (c.drop hashBlockSize :: cs)
termination_by l => (l.map List.length).sum + l.length
decreasing_by
  · simp only [List.map_cons, List.sum_cons, List.length_cons]
    omega
  · simp only [List.map_cons, List.sum_cons, List.length_cons, List.length_drop]
    have hb : 0 < hashBlockSize := by decide
    omega

/-- Lower-case hex encoding of a byte list; mirrors Go `fmt.Sprintf("%x", ...)`
on a byte slice. -/
def hexDigitChar (n : Nat) : Char :=
  if n < 10 then Char.ofNat (48 + n) else Char.ofNat (87 + n)

def hexOfBytes (bs : Bytes) : String :=
  String.mk (bs.foldr (fun b acc => hexDigitChar (b / 16 % 16) :: hexDigitChar (b % 16) :: acc) [])

/-- ContentHash with the SHA-256 digest abstracted as `H`: each nonempty
read becomes one inner digest, the concatenated inner digests are hashed
once more, and the result is hex-encoded. -/
def ContentHash (H : Bytes → Bytes) (chunks : List Bytes) : String :=
  hexOfBytes (H (List.flatten (((readsUntilShort chunks).filter (fun b => b.length ≠ 0)).map H)))

/-! ## DiffResult and the diff walk (src/unnamed/part_005, lines 25-121;
src/service/services.go) -/

/-- DiffResult: the classification of one relative path.  Constructors
mirror `DiffResultMatch`, `DiffResultMismatch`, `DiffResultOnlyExistsRemote`,
`DiffResultOnlyExistsLocal`. -/
inductive DiffResult where
  | Match
  | Mismatch
  | OnlyExistsRemote
  | OnlyExistsLocal
deriving DecidableEq, Repr

/-- Declared metadata of one remote file, as `files.FileMetadata` reports
it (`Size`, `ContentHash`). -/
structure FileMetadata where
  size : Nat
  contentHash : String
deriving DecidableEq, Repr

/-- One regular file of the local tree: its path relative to the sync root
(as `filepath.Rel(local, file)` produces it) and its byte content.  Its
stat size is the content length. -/
structure LocalFile where
  path : String
  content : Bytes
deriving DecidableEq, Repr

/-- One entry of the remote listing: either a file (with its path already
made relative to the namespace) or any other metadata kind, which the
map-building loop skips. -/
inductive Metadata where
  | file (relPath : String) (meta : FileMetadata)
  | folder (relPath : String)
deriving DecidableEq, Repr

abbrev RemoteMap := List (String × FileMetadata)

/-- The `remoteFiles` map built from the listing entries (part_005 lines
46-62): files only, inserted in listing order. -/
def buildRemoteMap (ents : List Metadata) : RemoteMap :=
  ents.foldl
    (fun m e =>
      match e with
      | Metadata.file p v => setKey m p v
      | Metadata.folder _ => m) []

/-- The `skip != nil && skip(strippedFile, info)` test; the skip callback
sees the relative path and the file's stat info (modelled by its size). -/
def skipTest (skip : Option (String → Nat → Bool)) (p : String) (sz : Nat) : Bool :=
  match skip with
  | some sk => sk p sz
  | none => false

/-- Accumulated walk data: the shrinking `remoteFiles` map, the
classifications recorded so far (`acct` counts every accounted path,
including the hash-equal case in which the code removes the entry without
emitting anything — recorded as `Match`; `calls` records exactly the
invocations of the callback, in order), and the callback's state. -/
structure WalkAcc (σ : Type) where
  remaining : RemoteMap
  acct : List (String × DiffResult)
  calls : List (String × DiffResult)
  state : σ
deriving Repr

/-- One iteration of the `filepath.Walk` closure (part_005 lines 64-107)
on a regular file.  Control flow matches the Go source exactly; in the
equal-size branch the callback's error is assigned to a shadowed `err`
(`hash, err := db.HashLocal(file)`) and the `if err != nil` after the
branch reads the outer, nil `err`, so a callback error raised on a
hash-difference `Mismatch` is dropped. -/
def walkStep {σ : Type} (hash : Bytes → String) (skip : Option (String → Nat → Bool))
    (cb : String → DiffResult → σ → σ × Option Err)
    (a : WalkAcc σ) (f : LocalFile) : WalkAcc σ × Option Err :=
  if skipTest skip f.path f.content.length then
    (a, none)
  else
    match lookupKey a.remaining f.path with
    | none =>
        let r := cb f.path DiffResult.OnlyExistsLocal a.state
        ({ a with
            acct := a.acct ++ [(f.path, DiffResult.OnlyExistsLocal)],
            calls := a.calls ++ [(f.path, DiffResult.OnlyExistsLocal)],
            state := r.1 }, r.2)
    | some metadata =>
        if metadata.size ≠ f.content.length then
          let r := cb f.path DiffResult.Mismatch a.state
          match r.2 with
          | some e =>
              ({ a with
                  acct := a.acct ++ [(f.path, DiffResult.Mismatch)],
                  calls := a.calls ++ [(f.path, DiffResult.Mismatch)],
                  state := r.1 }, some e)
          | none =>
              ({ remaining := removeKey a.remaining f.path,
                 acct := a.acct ++ [(f.path, DiffResult.Mismatch)],
                 calls := a.calls ++ [(f.path, DiffResult.Mismatch)],
                 state := r.1 }, none)
        else
          if metadata.contentHash ≠ hash f.content then
            let r := cb f.path DiffResult.Mismatch a.state
            ({ remaining := removeKey a.remaining f.path,
               acct := a.acct ++ [(f.path, DiffResult.Mismatch)],
               calls := a.calls ++ [(f.path, DiffResult.Mismatch)],
               state := r.1 }, none)
          else
            ({ remaining := removeKey a.remaining f.path,
               acct := a.acct ++ [(f.path, DiffResult.Match)],
               calls := a.calls,
               state := a.state }, none)

/-- The walk over the local regular files, in walk order; a non-nil error
returned by the closure aborts `filepath.Walk` immediately. -/
def walkLocals {σ : Type} (hash : Bytes → String) (skip : Option (String → Nat → Bool))
    (cb : String → DiffResult → σ → σ × Option Err) :
    List LocalFile → WalkAcc σ → WalkAcc σ × Option Err
  | [], a => (a, none)
  | f :: fs, a =>
      match walkStep hash skip cb a f with
      | (a', none) => walkLocals hash skip cb fs a'
      | (a', some e) => (a', some e)

/-- The post-walk drain (part_005 lines 113-118): every path still in
`remoteFiles` is emitted as `DiffResultOnlyExistsRemote`; a callback error
stops the loop and is returned. -/
def drainRemaining {σ : Type} (cb : String → DiffResult → σ → σ × Option Err) :
    List (String × FileMetadata) → WalkAcc σ → WalkAcc σ × Option Err
  | [], a => (a, none)
  | (p, _) :: rest, a =>
      let r := cb p DiffResult.OnlyExistsRemote a.state
      let a' : WalkAcc σ :=
        { a with
            acct := a.acct ++ [(p, DiffResult.OnlyExistsRemote)],
            calls := a.calls ++ [(p, DiffResult.OnlyExistsRemote)],
            state := r.1 }
      match r.2 with
      | none => drainRemaining cb rest a'
      | some e => (a', some e)

/-- The diff proper, on an already-built remote map: local walk, then
drain of the leftover remote entries. -/
def diffCore {σ : Type} (hash : Bytes → String) (remoteFiles : RemoteMap)
    (localFiles : List LocalFile) (skip : Option (String → Nat → Bool))
    (cb : String → DiffResult → σ → σ × Option Err) (s0 : σ) :
    WalkAcc σ × Option Err :=
  match walkLocals hash skip cb localFiles ⟨remoteFiles, [], [], s0⟩ with
  | (a, some e) => (a, some e)
  | (a, none) => drainRemaining cb a.remaining a

/-- The `strings.HasPrefix(err.Error(), "path/not_found/")` test, on the
underlying character list (structurally recursive, unlike
`String.startsWith`, so that concrete runs evaluate). -/
def goHasPre (pre s : String) : Bool :=
  pre.data.isPrefixOf s.data

/-- Dropbox.WalkDiffs (part_005 lines 25-121).  `listing` is the result of
the recursive `ListFolder` call; an error whose message starts with
`"path/not_found/"` is recovered as an empty entry list after a
`CreateFolderV2` call (whose possible failure is `createFolderErr`); any
other listing error is returned unchanged. -/
def walkDiffs {σ : Type} (hash : Bytes → String)
    (listing : Except Err (List Metadata)) (createFolderErr : Option Err)
    (localFiles : List LocalFile) (skip : Option (String → Nat → Bool))
    (cb : String → DiffResult → σ → σ × Option Err) (s0 : σ) :
    WalkAcc σ × Option Err :=
  match listing with
  | Except.error e =>
      if goHasPre "path/not_found/" e then
        match createFolderErr with
        | some ce => (⟨[], [], [], s0⟩, some ce)
        | none => diffCore hash (buildRemoteMap []) localFiles skip cb s0
      else (⟨[], [], [], s0⟩, some e)
  | Except.ok ents => diffCore hash (buildRemoteMap ents) localFiles skip cb s0

/-! ## Claim C1: ContentHash and chunking -/

theorem readsUntilShort_single_short (c : Bytes) (cs : List Bytes)
    (h : c.length < hashBlockSize) : readsUntilShort (c :: cs) = [c] := by
  rw [readsUntilShort]
  simp [h]

/-- C1 (code_bug evidence).  The fingerprint is NOT a function of the byte
content alone: the content `[97, 98]` ("ab") delivered by a single read
hashes to a different string than the same content delivered as two reads
`[97]`, `[98]` — the loop treats each read as a block and stops at the
first short read, so the second chunk is never even consumed.  The inner
and outer SHA-256 are instantiated with the (injective) identity digest;
with real SHA-256 the two fingerprints differ likewise unless SHA-256
collides. -/
theorem contentHash_chunk_dependent :
    ContentHash id [[97], [98]] ≠ ContentHash id [[97, 98]] := by
  have h1 : readsUntilShort [[97], [98]] = [[97]] :=
    readsUntilShort_single_short _ _ (by norm_num [hashBlockSize])
  have h2 : readsUntilShort [[97, 98]] = [[97, 98]] :=
    readsUntilShort_single_short _ _ (by norm_num [hashBlockSize])
  simp [ContentHash, h1, h2, hexOfBytes, hexDigitChar]

/-! ## Generic facts about the diff walk -/

theorem lookupKey_isSome_iff_mem_keys {β : Type} (l : List (String × β)) (p : String) :
    (lookupKey l p).isSome ↔ p ∈ l.map Prod.fst := by
  constructor
  · intro h
    cases hl : lookupKey l p with
    | none => rw [hl] at h; simp at h
    | some v => exact List.mem_map.mpr ⟨(p, v), mem_of_lookupKey_some hl, rfl⟩
  · intro h
    rcases List.mem_map.mp h with ⟨e, he, hfe⟩
    obtain ⟨k, v⟩ := e
    cases hfe
    exact lookupKey_isSome_of_mem he

theorem mem_removeKey_sub {β : Type} {l : List (String × β)} {k : String} {e : String × β}
    (h : e ∈ removeKey l k) : e ∈ l := by
  induction l with
  | nil => simp [removeKey] at h
  | cons e' rest ih =>
      obtain ⟨k', v⟩ := e'
      by_cases h1 : k' = k
      · simp only [removeKey, if_pos h1] at h
        exact List.mem_cons_of_mem _ (ih h)
      · simp only [removeKey, if_neg h1, List.mem_cons] at h
        rcases h with h | h
        · simp [h]
        · exact List.mem_cons_of_mem _ (ih h)

theorem buildRemoteMap_keys_nodup (ents : List Metadata) :
    ((buildRemoteMap ents).map Prod.fst).Nodup := by
  suffices hgen : ∀ (m : RemoteMap), (m.map Prod.fst).Nodup →
      ((ents.foldl
        (fun m e =>
          match e with
          | Metadata.file p v => setKey m p v
          | Metadata.folder _ => m) m).map Prod.fst).Nodup by
    exact hgen [] (by simp)
  induction ents with
  | nil => intro m hm; simpa using hm
  | cons e rest ih =>
      intro m hm
      cases e with
      | file p v => exact ih _ (keys_setKey_nodup v hm)
      | folder p => exact ih _ hm

theorem walkStep_err_none {σ : Type} (hash : Bytes → String)
    (skip : Option (String → Nat → Bool)) (cb : String → DiffResult → σ → σ × Option Err)
    (hcb : ∀ p d s, (cb p d s).2 = none) (a : WalkAcc σ) (f : LocalFile) :
    (walkStep hash skip cb a f).2 = none := by
  unfold walkStep
  cases hs : skipTest skip f.path f.content.length
  · cases hlook : lookupKey a.remaining f.path with
    | none => simp [hlook, hcb]
    | some m =>
        by_cases hsize : m.size = f.content.length
        · by_cases hh : m.contentHash = hash f.content
          · simp [hlook, hsize, hh]
          · simp [hlook, hsize, hh, hcb]
        · simp [hlook, hsize, hcb]
  · simp

theorem walkStep_skip {σ : Type} (hash : Bytes → String)
    (skip : Option (String → Nat → Bool)) (cb : String → DiffResult → σ → σ × Option Err)
    (a : WalkAcc σ) (f : LocalFile)
    (hs : skipTest skip f.path f.content.length = true) :
    walkStep hash skip cb a f = (a, none) := by
  unfold walkStep
  simp [hs]

theorem walkStep_acct {σ : Type} (hash : Bytes → String)
    (cb : String → DiffResult → σ → σ × Option Err)
    (hcb : ∀ p d s, (cb p d s).2 = none) (a : WalkAcc σ) (f : LocalFile) :
    ∃ d, (walkStep hash none cb a f).1.acct = a.acct ++ [(f.path, d)] := by
  unfold walkStep
  cases hlook : lookupKey a.remaining f.path with
  | none => exact ⟨DiffResult.OnlyExistsLocal, by simp [skipTest, hlook]⟩
  | some m =>
      by_cases hsize : m.size = f.content.length
      · by_cases hh : m.contentHash = hash f.content
        · exact ⟨DiffResult.Match, by simp [skipTest, hlook, hsize, hh]⟩
        · exact ⟨DiffResult.Mismatch, by simp [skipTest, hlook, hsize, hh, hcb]⟩
      · exact ⟨DiffResult.Mismatch, by simp [skipTest, hlook, hsize, hcb]⟩

theorem walkStep_calls {σ : Type} (hash : Bytes → String)
    (skip : Option (String → Nat → Bool)) (cb : String → DiffResult → σ → σ × Option Err)
    (a : WalkAcc σ) (f : LocalFile) :
    ∃ l, (walkStep hash skip cb a f).1.calls = a.calls ++ l ∧
      ∀ e ∈ l, e.1 = f.path ∧ skipTest skip f.path f.content.length = false ∧
        (e.2 = DiffResult.OnlyExistsLocal ∨ e.2 = DiffResult.Mismatch) := by
  unfold walkStep
  cases hs : skipTest skip f.path f.content.length
  · cases hlook : lookupKey a.remaining f.path with
    | none =>
        refine ⟨[(f.path, DiffResult.OnlyExistsLocal)], by simp [hlook], ?_⟩
        intro e he
        simp at he
        simp [he]
    | some m =>
        by_cases hsize : m.size = f.content.length
        · by_cases hh : m.contentHash = hash f.content
          · exact ⟨[], by simp [hlook, hsize, hh], by simp⟩
          · refine ⟨[(f.path, DiffResult.Mismatch)], ?_, ?_⟩
            · cases hr : (cb f.path DiffResult.Mismatch a.state).2 <;>
                simp [hlook, hsize, hh, hr]
            · intro e he
              simp at he
              simp [he]
        · refine ⟨[(f.path, DiffResult.Mismatch)], ?_, ?_⟩
          · cases hr : (cb f.path DiffResult.Mismatch a.state).2 <;>
              simp [hlook, hsize, hr]
          · intro e he
            simp at he
            simp [he]
  · simp

theorem walkStep_remaining_lookup {σ : Type} (hash : Bytes → String)
    (cb : String → DiffResult → σ → σ × Option Err)
    (hcb : ∀ p d s, (cb p d s).2 = none) (a : WalkAcc σ) (f : LocalFile) (p : String) :
    lookupKey (walkStep hash none cb a f).1.remaining p =
      if p = f.path then none else lookupKey a.remaining p := by
  unfold walkStep
  cases hlook : lookupKey a.remaining f.path with
  | none =>
      simp only [skipTest, Bool.false_eq_true, if_false, hlook]
      by_cases hp : p = f.path
      · simp [hp, hlook]
      · simp [hp]
  | some m =>
      by_cases hsize : m.size = f.content.length
      · by_cases hh : m.contentHash = hash f.content
        · simp [skipTest, hlook, hsize, hh, lookupKey_removeKey]
        · simp [skipTest, hlook, hsize, hh, hcb, lookupKey_removeKey]
      · simp [skipTest, hlook, hsize, hcb, lookupKey_removeKey]

theorem walkStep_remaining_sub {σ : Type} (hash : Bytes → String)
    (skip : Option (String → Nat → Bool)) (cb : String → DiffResult → σ → σ × Option Err)
    (a : WalkAcc σ) (f : LocalFile) {e : String × FileMetadata}
    (h : e ∈ (walkStep hash skip cb a f).1.remaining) : e ∈ a.remaining := by
  revert h
  unfold walkStep
  cases hs : skipTest skip f.path f.content.length
  · cases hlook : lookupKey a.remaining f.path with
    | none => intro h; simpa using h
    | some m =>
        by_cases hsize : m.size = f.content.length
        · by_cases hh : m.contentHash = hash f.content
          · intro h
            simp only [hlook, hsize, hh] at h
            simp at h
            exact mem_removeKey_sub h
          · cases hr : (cb f.path DiffResult.Mismatch a.state).2 <;>
              · intro h
                simp [hlook, hsize, hh, hr] at h
                exact mem_removeKey_sub h
        · cases hr : (cb f.path DiffResult.Mismatch a.state).2
          · intro h
            simp [hlook, hsize, hr] at h
            exact mem_removeKey_sub h
          · intro h
            simpa [hlook, hsize, hr] using h
  · intro h; simpa using h

theorem walkStep_remaining_nodup {σ : Type} (hash : Bytes → String)
    (skip : Option (String → Nat → Bool)) (cb : String → DiffResult → σ → σ × Option Err)
    (a : WalkAcc σ) (f : LocalFile)
    (h : (a.remaining.map Prod.fst).Nodup) :
    (((walkStep hash skip cb a f).1.remaining).map Prod.fst).Nodup := by
  unfold walkStep
  cases hs : skipTest skip f.path f.content.length
  · cases hlook : lookupKey a.remaining f.path with
    | none => simpa [hlook] using h
    | some m =>
        by_cases hsize : m.size = f.content.length
        · by_cases hh : m.contentHash = hash f.content
          · simpa [hlook, hsize, hh] using keys_removeKey_nodup _ h
          · cases hr : (cb f.path DiffResult.Mismatch a.state).2 <;>
              simpa [hlook, hsize, hh, hr] using keys_removeKey_nodup _ h
        · cases hr : (cb f.path DiffResult.Mismatch a.state).2
          · simpa [hlook, hsize, hr] using keys_removeKey_nodup _ h
          · simpa [hlook, hsize, hr] using h
  · simpa using h

theorem walkStep_acct_calls {σ : Type} (hash : Bytes → String)
    (cb : String → DiffResult → σ → σ × Option Err)
    (hcb : ∀ p d s, (cb p d s).2 = none) (a : WalkAcc σ) (f : LocalFile) :
    ∃ d l, (walkStep hash none cb a f).1.acct = a.acct ++ [(f.path, d)] ∧
      (walkStep hash none cb a f).1.calls = a.calls ++ l ∧
      (l = [] ∨ l = [(f.path, d)]) := by
  unfold walkStep
  cases hlook : lookupKey a.remaining f.path with
  | none =>
      exact ⟨DiffResult.OnlyExistsLocal, [(f.path, DiffResult.OnlyExistsLocal)],
        by simp [skipTest, hlook], by simp [skipTest, hlook], Or.inr rfl⟩
  | some m =>
      by_cases hsize : m.size = f.content.length
      · by_cases hh : m.contentHash = hash f.content
        · exact ⟨DiffResult.Match, [], by simp [skipTest, hlook, hsize, hh],
            by simp [skipTest, hlook, hsize, hh], Or.inl rfl⟩
        · exact ⟨DiffResult.Mismatch, [(f.path, DiffResult.Mismatch)],
            by simp [skipTest, hlook, hsize, hh, hcb],
            by simp [skipTest, hlook, hsize, hh, hcb], Or.inr rfl⟩
      · exact ⟨DiffResult.Mismatch, [(f.path, DiffResult.Mismatch)],
          by simp [skipTest, hlook, hsize, hcb],
          by simp [skipTest, hlook, hsize, hcb], Or.inr rfl⟩

theorem walkLocals_err_none {σ : Type} (hash : Bytes → String)
    (skip : Option (String → Nat → Bool)) (cb : String → DiffResult → σ → σ × Option Err)
    (hcb : ∀ p d s, (cb p d s).2 = none) :
    ∀ (fs : List LocalFile) (a : WalkAcc σ), (walkLocals hash skip cb fs a).2 = none := by
  intro fs
  induction fs with
  | nil => intro a; rfl
  | cons f fs ih =>
      intro a
      have h1 := walkStep_err_none hash skip cb hcb a f
      rcases hstep : walkStep hash skip cb a f with ⟨a', e⟩
      rw [hstep] at h1
      simp at h1
      subst h1
      unfold walkLocals
      rw [hstep]
      exact ih a'

theorem walkLocals_acct_calls {σ : Type} (hash : Bytes → String)
    (cb : String → DiffResult → σ → σ × Option Err)
    (hcb : ∀ p d s, (cb p d s).2 = none) :
    ∀ (fs : List LocalFile) (a : WalkAcc σ),
    ∃ pairs cl, (walkLocals hash none cb fs a).1.acct = a.acct ++ pairs ∧
      pairs.map Prod.fst = fs.map LocalFile.path ∧
      (walkLocals hash none cb fs a).1.calls = a.calls ++ cl ∧
      (cl.map Prod.fst).Sublist (pairs.map Prod.fst) := by
  intro fs
  induction fs with
  | nil =>
      intro a
      exact ⟨[], [], by simp [walkLocals], by simp, by simp [walkLocals], by simp⟩
  | cons f fs ih =>
      intro a
      obtain ⟨d, l, hacct, hcalls, hl⟩ := walkStep_acct_calls hash cb hcb a f
      have herr := walkStep_err_none hash none cb hcb a f
      rcases hstep : walkStep hash none cb a f with ⟨a', e⟩
      rw [hstep] at hacct hcalls herr
      simp only at hacct hcalls
      simp at herr
      subst herr
      obtain ⟨pairs, cl, ha, hp, hc, hsub⟩ := ih a'
      refine ⟨(f.path, d) :: pairs, l ++ cl, ?_, ?_, ?_, ?_⟩
      · show (walkLocals hash none cb (f :: fs) a).1.acct = _
        unfold walkLocals
        rw [hstep, ha, hacct]
        simp
      · simp [hp]
      · show (walkLocals hash none cb (f :: fs) a).1.calls = _
        unfold walkLocals
        rw [hstep, hc, hcalls]
        simp
      · rcases hl with rfl | rfl
        · simp only [List.nil_append, List.map_cons]
          exact List.Sublist.cons _ hsub
        · simp only [List.singleton_append, List.map_cons]
          exact List.Sublist.cons₂ _ hsub

theorem walkLocals_remaining_lookup {σ : Type} (hash : Bytes → String)
    (cb : String → DiffResult → σ → σ × Option Err)
    (hcb : ∀ p d s, (cb p d s).2 = none) :
    ∀ (fs : List LocalFile) (a : WalkAcc σ) (p : String),
    lookupKey (walkLocals hash none cb fs a).1.remaining p =
      if p ∈ fs.map LocalFile.path then none else lookupKey a.remaining p := by
  intro fs
  induction fs with
  | nil => intro a p; simp [walkLocals]
  | cons f fs ih =>
      intro a p
      have herr := walkStep_err_none hash none cb hcb a f
      have hrl := walkStep_remaining_lookup hash cb hcb a f p
      rcases hstep : walkStep hash none cb a f with ⟨a', e⟩
      rw [hstep] at herr hrl
      simp only at hrl
      simp at herr
      subst herr
      show lookupKey (walkLocals hash none cb (f :: fs) a).1.remaining p = _
      unfold walkLocals
      rw [hstep, ih a' p]
      by_cases hp : p ∈ fs.map LocalFile.path
      · simp [hp]
      · by_cases hpf : p = f.path
        · simp only [hpf, if_pos rfl] at hrl
          simp [hp, hpf, hrl]
        · simp only [if_neg hpf] at hrl
          simp [hp, hpf, hrl]

theorem walkLocals_remaining_nodup {σ : Type} (hash : Bytes → String)
    (skip : Option (String → Nat → Bool)) (cb : String → DiffResult → σ → σ × Option Err) :
    ∀ (fs : List LocalFile) (a : WalkAcc σ),
    (a.remaining.map Prod.fst).Nodup →
    (((walkLocals hash skip cb fs a).1.remaining).map Prod.fst).Nodup := by
  intro fs
  induction fs with
  | nil => intro a h; simpa [walkLocals] using h
  | cons f fs ih =>
      intro a h
      have hnd := walkStep_remaining_nodup hash skip cb a f h
      rcases hstep : walkStep hash skip cb a f with ⟨a', e⟩
      rw [hstep] at hnd
      simp only at hnd
      show (((walkLocals hash skip cb (f :: fs) a).1.remaining).map Prod.fst).Nodup
      unfold walkLocals
      rw [hstep]
      cases e with
      | none => exact ih a' hnd
      | some e => exact hnd

theorem walkLocals_remaining_sub {σ : Type} (hash : Bytes → String)
    (skip : Option (String → Nat → Bool)) (cb : String → DiffResult → σ → σ × Option Err) :
    ∀ (fs : List LocalFile) (a : WalkAcc σ) (e : String × FileMetadata),
    e ∈ (walkLocals hash skip cb fs a).1.remaining → e ∈ a.remaining := by
  intro fs
  induction fs with
  | nil => intro a e h; simpa [walkLocals] using h
  | cons f fs ih =>
      intro a e h
      rcases hstep : walkStep hash skip cb a f with ⟨a', er⟩
      rw [show (walkLocals hash skip cb (f :: fs) a) =
        (match walkStep hash skip cb a f with
         | (a', none) => walkLocals hash skip cb fs a'
         | (a', some e) => (a', some e)) from rfl, hstep] at h
      have hsub : e ∈ a'.remaining → e ∈ a.remaining := by
        intro hmem
        have := walkStep_remaining_sub hash skip cb a f (e := e)
        rw [hstep] at this
        exact this hmem
      cases er with
      | none => exact hsub (ih a' e h)
      | some er => exact hsub h

theorem walkLocals_calls_mono {σ : Type} (hash : Bytes → String)
    (skip : Option (String → Nat → Bool)) (cb : String → DiffResult → σ → σ × Option Err) :
    ∀ (fs : List LocalFile) (a : WalkAcc σ),
    ∃ l, (walkLocals hash skip cb fs a).1.calls = a.calls ++ l := by
  intro fs
  induction fs with
  | nil => intro a; exact ⟨[], by simp [walkLocals]⟩
  | cons f fs ih =>
      intro a
      obtain ⟨l, hl, _⟩ := walkStep_calls hash skip cb a f
      rcases hstep : walkStep hash skip cb a f with ⟨a', er⟩
      rw [hstep] at hl
      simp only at hl
      show ∃ l, (walkLocals hash skip cb (f :: fs) a).1.calls = a.calls ++ l
      unfold walkLocals
      rw [hstep]
      cases er with
      | none =>
          obtain ⟨l2, hl2⟩ := ih a'
          exact ⟨l ++ l2, by rw [hl2, hl, List.append_assoc]⟩
      | some er => exact ⟨l, hl⟩

theorem walkLocals_calls_prov {σ : Type} (hash : Bytes → String)
    (skip : Option (String → Nat → Bool)) (cb : String → DiffResult → σ → σ × Option Err) :
    ∀ (fs : List LocalFile) (a : WalkAcc σ) (e : String × DiffResult),
    e ∈ (walkLocals hash skip cb fs a).1.calls →
    e ∈ a.calls ∨ ∃ f ∈ fs, e.1 = f.path ∧
      skipTest skip f.path f.content.length = false ∧
      (e.2 = DiffResult.OnlyExistsLocal ∨ e.2 = DiffResult.Mismatch) := by
  intro fs
  induction fs with
  | nil => intro a e h; left; simpa [walkLocals] using h
  | cons f fs ih =>
      intro a e h
      obtain ⟨l, hl, hprop⟩ := walkStep_calls hash skip cb a f
      rcases hstep : walkStep hash skip cb a f with ⟨a', er⟩
      rw [hstep] at hl
      simp only at hl
      rw [show (walkLocals hash skip cb (f :: fs) a) =
        (match walkStep hash skip cb a f with
         | (a', none) => walkLocals hash skip cb fs a'
         | (a', some e) => (a', some e)) from rfl, hstep] at h
      have hstepcase : e ∈ a'.calls →
          e ∈ a.calls ∨ ∃ g ∈ f :: fs, e.1 = g.path ∧
            skipTest skip g.path g.content.length = false ∧
            (e.2 = DiffResult.OnlyExistsLocal ∨ e.2 = DiffResult.Mismatch) := by
        intro hmem
        rw [hl] at hmem
        rcases List.mem_append.mp hmem with hmem | hmem
        · exact Or.inl hmem
        · obtain ⟨h1, h2, h3⟩ := hprop e hmem
          exact Or.inr ⟨f, List.mem_cons_self f fs, h1, h2, h3⟩
      cases er with
      | none =>
          rcases ih a' e h with hmem | ⟨g, hg, hprops⟩
          · exact hstepcase hmem
          · exact Or.inr ⟨g, List.mem_cons_of_mem _ hg, hprops⟩
      | some er => exact hstepcase h

theorem drainRemaining_all {σ : Type} (cb : String → DiffResult → σ → σ × Option Err)
    (hcb : ∀ p s, (cb p DiffResult.OnlyExistsRemote s).2 = none) :
    ∀ (rem : List (String × FileMetadata)) (a : WalkAcc σ),
    (drainRemaining cb rem a).1.acct =
        a.acct ++ rem.map (fun e => (e.1, DiffResult.OnlyExistsRemote)) ∧
      (drainRemaining cb rem a).1.calls =
        a.calls ++ rem.map (fun e => (e.1, DiffResult.OnlyExistsRemote)) ∧
      (drainRemaining cb rem a).1.remaining = a.remaining ∧
      (drainRemaining cb rem a).2 = none := by
  intro rem
  induction rem with
  | nil => intro a; simp [drainRemaining]
  | cons e rest ih =>
      intro a
      obtain ⟨p, m⟩ := e
      have hr := hcb p a.state
      rcases hcbr : cb p DiffResult.OnlyExistsRemote a.state with ⟨s', er⟩
      rw [hcbr] at hr
      simp at hr
      subst hr
      have hred : drainRemaining cb ((p, m) :: rest) a =
          drainRemaining cb rest
            { a with
                acct := a.acct ++ [(p, DiffResult.OnlyExistsRemote)],
                calls := a.calls ++ [(p, DiffResult.OnlyExistsRemote)],
                state := s' } := by
        simp only [drainRemaining, hcbr]
      rw [hred]
      obtain ⟨h1, h2, h3, h4⟩ := ih _
      refine ⟨?_, ?_, ?_, h4⟩
      · rw [h1]; simp
      · rw [h2]; simp
      · rw [h3]

theorem drainRemaining_calls_mono {σ : Type} (cb : String → DiffResult → σ → σ × Option Err) :
    ∀ (rem : List (String × FileMetadata)) (a : WalkAcc σ),
    ∃ l, (drainRemaining cb rem a).1.calls = a.calls ++ l := by
  intro rem
  induction rem with
  | nil => intro a; exact ⟨[], by simp [drainRemaining]⟩
  | cons e rest ih =>
      intro a
      obtain ⟨p, m⟩ := e
      rcases hcbr : cb p DiffResult.OnlyExistsRemote a.state with ⟨s', er⟩
      cases er with
      | none =>
          have hred : drainRemaining cb ((p, m) :: rest) a =
              drainRemaining cb rest
                { a with
                    acct := a.acct ++ [(p, DiffResult.OnlyExistsRemote)],
                    calls := a.calls ++ [(p, DiffResult.OnlyExistsRemote)],
                    state := s' } := by
            simp only [drainRemaining, hcbr]
          rw [hred]
          obtain ⟨l, hl⟩ := ih _
          exact ⟨(p, DiffResult.OnlyExistsRemote) :: l, by rw [hl]; simp⟩
      | some er =>
          refine ⟨[(p, DiffResult.OnlyExistsRemote)], ?_⟩
          simp only [drainRemaining, hcbr]

theorem drainRemaining_calls_prov {σ : Type} (cb : String → DiffResult → σ → σ × Option Err) :
    ∀ (rem : List (String × FileMetadata)) (a : WalkAcc σ) (e : String × DiffResult),
    e ∈ (drainRemaining cb rem a).1.calls →
    e ∈ a.calls ∨ ((∃ m, (e.1, m) ∈ rem) ∧ e.2 = DiffResult.OnlyExistsRemote) := by
  intro rem
  induction rem with
  | nil => intro a e h; left; simpa [drainRemaining] using h
  | cons x rest ih =>
      intro a e h
      obtain ⟨p, m⟩ := x
      rcases hcbr : cb p DiffResult.OnlyExistsRemote a.state with ⟨s', er⟩
      have hstepmem : e ∈ a.calls ++ [(p, DiffResult.OnlyExistsRemote)] →
          e ∈ a.calls ∨ ((∃ m', (e.1, m') ∈ (p, m) :: rest) ∧
            e.2 = DiffResult.OnlyExistsRemote) := by
        intro hmem
        rcases List.mem_append.mp hmem with hmem | hmem
        · exact Or.inl hmem
        · simp at hmem
          subst hmem
          exact Or.inr ⟨⟨m, List.mem_cons_self _ _⟩, rfl⟩
      cases er with
      | none =>
          have hred : drainRemaining cb ((p, m) :: rest) a =
              drainRemaining cb rest
                { a with
                    acct := a.acct ++ [(p, DiffResult.OnlyExistsRemote)],
                    calls := a.calls ++ [(p, DiffResult.OnlyExistsRemote)],
                    state := s' } := by
            simp only [drainRemaining, hcbr]
          rw [hred] at h
          rcases ih _ e h with hmem | ⟨⟨m', hm'⟩, hd⟩
          · exact hstepmem hmem
          · exact Or.inr ⟨⟨m', List.mem_cons_of_mem _ hm'⟩, hd⟩
      | some er =>
          have hred : drainRemaining cb ((p, m) :: rest) a =
              ({ a with
                  acct := a.acct ++ [(p, DiffResult.OnlyExistsRemote)],
                  calls := a.calls ++ [(p, DiffResult.OnlyExistsRemote)],
                  state := s' }, some er) := by
            simp only [drainRemaining, hcbr]
          rw [hred] at h
          exact hstepmem h

theorem walkLocals_empty_remote {σ : Type} (hash : Bytes → String)
    (cb : String → DiffResult → σ → σ × Option Err)
    (hcb : ∀ p d s, (cb p d s).2 = none) :
    ∀ (fs : List LocalFile) (a : WalkAcc σ), a.remaining = [] →
    (walkLocals hash none cb fs a).1.calls =
        a.calls ++ fs.map (fun f => (f.path, DiffResult.OnlyExistsLocal)) ∧
      (walkLocals hash none cb fs a).1.remaining = [] ∧
      (walkLocals hash none cb fs a).2 = none := by
  intro fs
  induction fs with
  | nil => intro a h; simp [walkLocals, h]
  | cons f fs ih =>
      intro a h
      have hr := hcb f.path DiffResult.OnlyExistsLocal a.state
      rcases hcbr : cb f.path DiffResult.OnlyExistsLocal a.state with ⟨s', er⟩
      rw [hcbr] at hr
      simp at hr
      subst hr
      have hstep : walkStep hash none cb a f =
          ({ a with
              acct := a.acct ++ [(f.path, DiffResult.OnlyExistsLocal)],
              calls := a.calls ++ [(f.path, DiffResult.OnlyExistsLocal)],
              state := s' }, none) := by
        unfold walkStep
        rw [show lookupKey a.remaining f.path = none from by rw [h]; rfl]
        simp [skipTest, hcbr]
      have hred : walkLocals hash none cb (f :: fs) a =
          walkLocals hash none cb fs
            { a with
                acct := a.acct ++ [(f.path, DiffResult.OnlyExistsLocal)],
                calls := a.calls ++ [(f.path, DiffResult.OnlyExistsLocal)],
                state := s' } := by
        simp only [walkLocals, hstep]
      rw [hred]
      obtain ⟨h1, h2, h3⟩ := ih
        { a with
            acct := a.acct ++ [(f.path, DiffResult.OnlyExistsLocal)],
            calls := a.calls ++ [(f.path, DiffResult.OnlyExistsLocal)],
            state := s' } (by simpa using h)
      refine ⟨?_, h2, h3⟩
      rw [h1]
      simp

theorem walkStep_size_mismatch {σ : Type} (hash : Bytes → String)
    (cb : String → DiffResult → σ → σ × Option Err)
    (a : WalkAcc σ) (f : LocalFile)
    (hr : (cb f.path DiffResult.Mismatch a.state).2 = none)
    {m : FileMetadata} (hlook : lookupKey a.remaining f.path = some m)
    (hsize : m.size ≠ f.content.length) :
    walkStep hash none cb a f =
      ({ remaining := removeKey a.remaining f.path,
         acct := a.acct ++ [(f.path, DiffResult.Mismatch)],
         calls := a.calls ++ [(f.path, DiffResult.Mismatch)],
         state := (cb f.path DiffResult.Mismatch a.state).1 }, none) := by
  unfold walkStep
  rcases hcbr : cb f.path DiffResult.Mismatch a.state with ⟨s', er⟩
  rw [hcbr] at hr
  simp at hr
  subst hr
  simp [skipTest, hlook, hsize, hcbr]

theorem walkStep_only_local {σ : Type} (hash : Bytes → String)
    (cb : String → DiffResult → σ → σ × Option Err) (a : WalkAcc σ) (f : LocalFile)
    (hlook : lookupKey a.remaining f.path = none) :
    walkStep hash none cb a f =
      ({ a with
          acct := a.acct ++ [(f.path, DiffResult.OnlyExistsLocal)],
          calls := a.calls ++ [(f.path, DiffResult.OnlyExistsLocal)],
          state := (cb f.path DiffResult.OnlyExistsLocal a.state).1 },
        (cb f.path DiffResult.OnlyExistsLocal a.state).2) := by
  unfold walkStep
  simp [skipTest, hlook]

theorem walkStep_hash_mismatch {σ : Type} (hash : Bytes → String)
    (cb : String → DiffResult → σ → σ × Option Err)
    (a : WalkAcc σ) (f : LocalFile)
    {m : FileMetadata} (hlook : lookupKey a.remaining f.path = some m)
    (hsize : m.size = f.content.length) (hh : m.contentHash ≠ hash f.content) :
    walkStep hash none cb a f =
      ({ remaining := removeKey a.remaining f.path,
         acct := a.acct ++ [(f.path, DiffResult.Mismatch)],
         calls := a.calls ++ [(f.path, DiffResult.Mismatch)],
         state := (cb f.path DiffResult.Mismatch a.state).1 }, none) := by
  unfold walkStep
  simp [skipTest, hlook, hsize, hh]

theorem walkStep_hash_match {σ : Type} (hash : Bytes → String)
    (cb : String → DiffResult → σ → σ × Option Err)
    (a : WalkAcc σ) (f : LocalFile)
    {m : FileMetadata} (hlook : lookupKey a.remaining f.path = some m)
    (hsize : m.size = f.content.length) (hh : m.contentHash = hash f.content) :
    walkStep hash none cb a f =
      ({ remaining := removeKey a.remaining f.path,
         acct := a.acct ++ [(f.path, DiffResult.Match)],
         calls := a.calls,
         state := a.state }, none) := by
  unfold walkStep
  simp [skipTest, hlook, hsize, hh]

theorem walkLocals_acct_mono {σ : Type} (hash : Bytes → String)
    (skip : Option (String → Nat → Bool)) (cb : String → DiffResult → σ → σ × Option Err) :
    ∀ (fs : List LocalFile) (a : WalkAcc σ),
    ∃ l, (walkLocals hash skip cb fs a).1.acct = a.acct ++ l := by
  intro fs
  induction fs with
  | nil => intro a; exact ⟨[], by simp [walkLocals]⟩
  | cons f fs ih =>
      intro a
      have hstepl : ∃ l, (walkStep hash skip cb a f).1.acct = a.acct ++ l := by
        unfold walkStep
        cases hs : skipTest skip f.path f.content.length
        · cases hlook : lookupKey a.remaining f.path with
          | none => exact ⟨[(f.path, DiffResult.OnlyExistsLocal)], by simp [hlook]⟩
          | some m =>
              by_cases hsize : m.size = f.content.length
              · by_cases hh : m.contentHash = hash f.content
                · exact ⟨[(f.path, DiffResult.Match)], by simp [hlook, hsize, hh]⟩
                · exact ⟨[(f.path, DiffResult.Mismatch)], by
                    cases hr : (cb f.path DiffResult.Mismatch a.state).2 <;>
                      simp [hlook, hsize, hh, hr]⟩
              · exact ⟨[(f.path, DiffResult.Mismatch)], by
                  cases hr : (cb f.path DiffResult.Mismatch a.state).2 <;>
                    simp [hlook, hsize, hr]⟩
        · exact ⟨[], by simp⟩
      obtain ⟨l, hl⟩ := hstepl
      rcases hstep : walkStep hash skip cb a f with ⟨a', er⟩
      rw [hstep] at hl
      simp only at hl
      have hred : walkLocals hash skip cb (f :: fs) a =
          (match (a', er) with
           | (a', none) => walkLocals hash skip cb fs a'
           | (a', some e) => (a', some e)) := by
        simp only [walkLocals, hstep]
      rw [hred]
      cases er with
      | none =>
          obtain ⟨l2, hl2⟩ := ih a'
          exact ⟨l ++ l2, by simp only []; rw [hl2, hl, List.append_assoc]⟩
      | some er => exact ⟨l, hl⟩

theorem walkLocals_classify {σ : Type} (hash : Bytes → String)
    (cb : String → DiffResult → σ → σ × Option Err)
    (hcb : ∀ p d s, (cb p d s).2 = none) :
    ∀ (fs : List LocalFile) (a : WalkAcc σ) (f : LocalFile) (m : FileMetadata),
    (fs.map LocalFile.path).Nodup → f ∈ fs →
    lookupKey a.remaining f.path = some m →
    ((m.size ≠ f.content.length →
        (f.path, DiffResult.Mismatch) ∈ (walkLocals hash none cb fs a).1.calls) ∧
     (m.size = f.content.length → m.contentHash ≠ hash f.content →
        (f.path, DiffResult.Mismatch) ∈ (walkLocals hash none cb fs a).1.calls) ∧
     (m.size = f.content.length → m.contentHash = hash f.content →
        (f.path, DiffResult.Match) ∈ (walkLocals hash none cb fs a).1.acct ∧
        ∀ e ∈ (walkLocals hash none cb fs a).1.calls, e.1 = f.path → e ∈ a.calls)) := by
  intro fs
  induction fs with
  | nil =>
      intro a f m _ hf
      exact absurd hf (List.not_mem_nil f)
  | cons g fs ih =>
      intro a f m hnd hf hlook
      have hndtail : (fs.map LocalFile.path).Nodup := by
        simp only [List.map_cons, List.nodup_cons] at hnd
        exact hnd.2
      have hghead : g.path ∉ fs.map LocalFile.path := by
        simp only [List.map_cons, List.nodup_cons] at hnd
        exact hnd.1
      by_cases hgf : g = f
      · subst hgf
        refine ⟨?_, ?_, ?_⟩
        · intro hsize
          have hstep := walkStep_size_mismatch hash cb a g (hcb g.path DiffResult.Mismatch a.state) hlook hsize
          have hred : walkLocals hash none cb (g :: fs) a =
              walkLocals hash none cb fs
                { remaining := removeKey a.remaining g.path,
                  acct := a.acct ++ [(g.path, DiffResult.Mismatch)],
                  calls := a.calls ++ [(g.path, DiffResult.Mismatch)],
                  state := (cb g.path DiffResult.Mismatch a.state).1 } := by
            simp only [walkLocals, hstep]
          rw [hred]
          obtain ⟨l, hl⟩ := walkLocals_calls_mono hash none cb fs _
          rw [hl]
          simp
        · intro hsize hh
          have hstep := walkStep_hash_mismatch hash cb a g hlook hsize hh
          have hred : walkLocals hash none cb (g :: fs) a =
              walkLocals hash none cb fs
                { remaining := removeKey a.remaining g.path,
                  acct := a.acct ++ [(g.path, DiffResult.Mismatch)],
                  calls := a.calls ++ [(g.path, DiffResult.Mismatch)],
                  state := (cb g.path DiffResult.Mismatch a.state).1 } := by
            simp only [walkLocals, hstep]
          rw [hred]
          obtain ⟨l, hl⟩ := walkLocals_calls_mono hash none cb fs _
          rw [hl]
          simp
        · intro hsize hh
          have hstep := walkStep_hash_match hash cb a g hlook hsize hh
          have hred : walkLocals hash none cb (g :: fs) a =
              walkLocals hash none cb fs
                { remaining := removeKey a.remaining g.path,
                  acct := a.acct ++ [(g.path, DiffResult.Match)],
                  calls := a.calls,
                  state := a.state } := by
            simp only [walkLocals, hstep]
          rw [hred]
          constructor
          · obtain ⟨l, hl⟩ := walkLocals_acct_mono hash none cb fs _
            rw [hl]
            simp
          · intro e he hef
            rcases walkLocals_calls_prov hash none cb fs _ e he with hmem | ⟨g', hg', h1, _, _⟩
            · exact hmem
            · exact absurd (hef ▸ h1 ▸ List.mem_map_of_mem LocalFile.path hg' :
                g.path ∈ fs.map LocalFile.path) hghead
      · have hf' : f ∈ fs := by
          rcases List.mem_cons.mp hf with h | h
          · exact absurd h.symm hgf
          · exact h
        have hfg : f.path ≠ g.path := by
          intro hc
          exact hghead (hc ▸ List.mem_map_of_mem LocalFile.path hf')
        have herr := walkStep_err_none hash none cb hcb a g
        have hrl := walkStep_remaining_lookup hash cb hcb a g f.path
        obtain ⟨lc, hlc, hlcprop⟩ := walkStep_calls hash none cb a g
        rcases hstep : walkStep hash none cb a g with ⟨a', er⟩
        rw [hstep] at herr hrl hlc
        simp only at hrl hlc
        simp at herr
        subst herr
        rw [if_neg hfg] at hrl
        have hred : walkLocals hash none cb (g :: fs) a =
            walkLocals hash none cb fs a' := by
          simp only [walkLocals, hstep]
        rw [hred]
        obtain ⟨c1, c2, c3⟩ := ih a' f m hndtail hf' (hrl.trans hlook)
        refine ⟨c1, c2, ?_⟩
        intro hsize hh
        obtain ⟨cm, hcalls⟩ := c3 hsize hh
        refine ⟨cm, ?_⟩
        intro e he hef
        have hmem := hcalls e he hef
        rw [hlc] at hmem
        rcases List.mem_append.mp hmem with hmem | hmem
        · exact hmem
        · obtain ⟨h1, _, _⟩ := hlcprop e hmem
          exact absurd (hef.symm.trans h1) hfg

theorem diffCore_of_noerr {σ : Type} (hash : Bytes → String)
    (skip : Option (String → Nat → Bool)) (cb : String → DiffResult → σ → σ × Option Err)
    (hcb : ∀ p d s, (cb p d s).2 = none) (rm : RemoteMap) (locals : List LocalFile) (s0 : σ) :
    diffCore hash rm locals skip cb s0 =
      drainRemaining cb (walkLocals hash skip cb locals ⟨rm, [], [], s0⟩).1.remaining
        (walkLocals hash skip cb locals ⟨rm, [], [], s0⟩).1 := by
  unfold diffCore
  have herr := walkLocals_err_none hash skip cb hcb locals ⟨rm, [], [], s0⟩
  rcases hw : walkLocals hash skip cb locals ⟨rm, [], [], s0⟩ with ⟨aw, er⟩
  rw [hw] at herr
  simp at herr
  subst herr
  rfl

theorem diffCore_calls_prov {σ : Type} (hash : Bytes → String)
    (skip : Option (String → Nat → Bool)) (cb : String → DiffResult → σ → σ × Option Err)
    (rm : RemoteMap) (locals : List LocalFile) (s0 : σ) :
    ∀ e ∈ (diffCore hash rm locals skip cb s0).1.calls,
    (∃ f ∈ locals, e.1 = f.path ∧ skipTest skip f.path f.content.length = false ∧
        (e.2 = DiffResult.OnlyExistsLocal ∨ e.2 = DiffResult.Mismatch)) ∨
      ((∃ m, (e.1, m) ∈ rm) ∧ e.2 = DiffResult.OnlyExistsRemote) := by
  intro e he
  unfold diffCore at he
  rcases hw : walkLocals hash skip cb locals ⟨rm, [], [], s0⟩ with ⟨aw, er⟩
  rw [hw] at he
  have hwalkmem : e ∈ aw.calls →
      (∃ f ∈ locals, e.1 = f.path ∧ skipTest skip f.path f.content.length = false ∧
        (e.2 = DiffResult.OnlyExistsLocal ∨ e.2 = DiffResult.Mismatch)) := by
    intro hmem
    have := walkLocals_calls_prov hash skip cb locals ⟨rm, [], [], s0⟩ e
    rw [hw] at this
    rcases this hmem with h | h
    · simp at h
    · exact h
  cases er with
  | some er => exact Or.inl (hwalkmem he)
  | none =>
      rcases drainRemaining_calls_prov cb aw.remaining aw e he with hmem | ⟨⟨m, hm⟩, hd⟩
      · exact Or.inl (hwalkmem hmem)
      · refine Or.inr ⟨⟨m, ?_⟩, hd⟩
        have := walkLocals_remaining_sub hash skip cb locals ⟨rm, [], [], s0⟩ (e.1, m)
        rw [hw] at this
        exact this hm

/-! ## Claim C2: the skip predicate -/

/-- C2 (counterexample).  The original claim is false: a local file `"a"`
for which the skip predicate returns true, whose relative path also exists
remotely, IS emitted — as `OnlyExistsRemote` — because the skipped walk
iteration neither compares nor removes the remote entry, which the
post-walk drain then emits. -/
theorem skip_counterexample :
    (walkDiffs (fun _ => "h") (Except.ok [Metadata.file "a" ⟨1, "h"⟩]) none
        [⟨"a", [1]⟩] (some (fun _ _ => true))
        (fun _ _ (_ : Unit) => ((), none)) ()).1.calls
      = [("a", DiffResult.OnlyExistsRemote)] := by
  decide

/-- C2 (amended).  A file every local occurrence of which the skip
predicate rejects is never emitted as `OnlyExistsLocal`, `Mismatch` or
`Match` — it is treated as absent locally.  If its path is also absent
from the remote inventory it appears in no emission at all; if the path
exists remotely, the only emission it can receive is `OnlyExistsRemote`. -/
theorem skip_excluded_as_local {σ : Type} (hash : Bytes → String)
    (ents : List Metadata) (cf : Option Err) (locals : List LocalFile)
    (skip : Option (String → Nat → Bool)) (cb : String → DiffResult → σ → σ × Option Err)
    (s0 : σ) (p : String)
    (hskip : ∀ f ∈ locals, f.path = p → skipTest skip f.path f.content.length = true) :
    (∀ e ∈ (walkDiffs hash (Except.ok ents) cf locals skip cb s0).1.calls,
        e.1 = p → e.2 = DiffResult.OnlyExistsRemote) ∧
      (lookupKey (buildRemoteMap ents) p = none →
        ∀ e ∈ (walkDiffs hash (Except.ok ents) cf locals skip cb s0).1.calls, e.1 ≠ p) := by
  have hprov := diffCore_calls_prov hash skip cb (buildRemoteMap ents) locals s0
  constructor
  · intro e he hep
    rcases hprov e he with ⟨f, hf, h1, h2, _⟩ | ⟨_, hd⟩
    · exact absurd (hskip f hf (h1.symm.trans hep)) (by simp [h2])
    · exact hd
  · intro hnone e he hep
    rcases hprov e he with ⟨f, hf, h1, h2, _⟩ | ⟨⟨m, hm⟩, _⟩
    · exact absurd (hskip f hf (h1.symm.trans hep)) (by simp [h2])
    · have := lookupKey_isSome_of_mem (hep ▸ hm)
      rw [hnone] at this
      simp at this

theorem skip_excluded_as_local_witness :
    ("a", DiffResult.OnlyExistsRemote).2 = DiffResult.OnlyExistsRemote :=
  (skip_excluded_as_local (fun _ => "h") [Metadata.file "a" ⟨1, "h"⟩] none
    [⟨"a", [1]⟩] (some (fun _ _ => true)) (fun _ _ (_ : Unit) => ((), none)) () "a"
    (by intro f hf _; simp [skipTest])).1
    ("a", DiffResult.OnlyExistsRemote) (by decide) rfl

/-! ## Claim C10: Match is never emitted -/

/-- C10.  The walk never invokes the callback with `DiffResultMatch`: every
emission is `OnlyExistsLocal`, `Mismatch` (during the walk) or
`OnlyExistsRemote` (during the drain); the equal-hash case removes the
remote entry with no emission.  Consequently the `Match` arms of the
push/pull callbacks can never run. -/
theorem never_emits_match {σ : Type} (hash : Bytes → String)
    (listing : Except Err (List Metadata)) (cf : Option Err)
    (locals : List LocalFile) (skip : Option (String → Nat → Bool))
    (cb : String → DiffResult → σ → σ × Option Err) (s0 : σ) :
    ∀ e ∈ (walkDiffs hash listing cf locals skip cb s0).1.calls,
      e.2 ≠ DiffResult.Match := by
  intro e he
  have hcore : ∀ rm, e ∈ (diffCore hash rm locals skip cb s0).1.calls →
      e.2 ≠ DiffResult.Match := by
    intro rm hmem
    rcases diffCore_calls_prov hash skip cb rm locals s0 e hmem with
      ⟨_, _, _, _, h | h⟩ | ⟨_, h⟩ <;> simp [h]
  cases listing with
  | ok ents => exact hcore (buildRemoteMap ents) he
  | error err =>
      simp only [walkDiffs] at he
      by_cases hsw : goHasPre "path/not_found/" err = true
      · rw [if_pos hsw] at he
        cases cf with
        | some ce => simp at he
        | none => exact hcore (buildRemoteMap []) he
      · rw [if_neg hsw] at he
        simp at he

theorem never_emits_match_witness :
    ("z", DiffResult.OnlyExistsLocal).2 ≠ DiffResult.Match :=
  never_emits_match (fun _ => "h") (Except.ok []) none [⟨"z", [5]⟩] none
    (fun _ _ (_ : Unit) => ((), none)) () ("z", DiffResult.OnlyExistsLocal) (by decide)

/-! ## Claim C3: exactly-once accounting -/

/-- C3.  With no skip predicate and a callback that never fails, the diff
walk accounts for every relative path present on either side exactly once:
the accounted classifications (which record the suppressed `Match` case as
well) carry pairwise-distinct paths, their paths are exactly the union of
the local paths and the remote-inventory keys, and no path reaches the
callback twice. -/
theorem diff_accounts_each_path_once {σ : Type} (hash : Bytes → String)
    (ents : List Metadata) (cf : Option Err) (locals : List LocalFile)
    (cb : String → DiffResult → σ → σ × Option Err) (s0 : σ)
    (hnd : (locals.map LocalFile.path).Nodup)
    (hcb : ∀ p d s, (cb p d s).2 = none) :
    (((walkDiffs hash (Except.ok ents) cf locals none cb s0).1.acct.map Prod.fst).Nodup) ∧
      (∀ p, p ∈ (walkDiffs hash (Except.ok ents) cf locals none cb s0).1.acct.map Prod.fst ↔
        (p ∈ locals.map LocalFile.path ∨ p ∈ (buildRemoteMap ents).map Prod.fst)) ∧
      (((walkDiffs hash (Except.ok ents) cf locals none cb s0).1.calls.map Prod.fst).Nodup) := by
  have hok : walkDiffs hash (Except.ok ents) cf locals none cb s0 =
      diffCore hash (buildRemoteMap ents) locals none cb s0 := rfl
  rw [hok, diffCore_of_noerr hash none cb hcb (buildRemoteMap ents) locals s0]
  obtain ⟨pairs, cl, hacct, hpairs, hcalls, hsub⟩ :=
    walkLocals_acct_calls hash cb hcb locals ⟨buildRemoteMap ents, [], [], s0⟩
  obtain ⟨d1, d2, _, _⟩ := drainRemaining_all cb (fun p s => hcb p DiffResult.OnlyExistsRemote s)
    (walkLocals hash none cb locals ⟨buildRemoteMap ents, [], [], s0⟩).1.remaining
    (walkLocals hash none cb locals ⟨buildRemoteMap ents, [], [], s0⟩).1
  have hl := walkLocals_remaining_lookup hash cb hcb locals ⟨buildRemoteMap ents, [], [], s0⟩
  have hremkeys : ∀ p,
      p ∈ ((walkLocals hash none cb locals
          ⟨buildRemoteMap ents, [], [], s0⟩).1.remaining.map Prod.fst) ↔
        (p ∉ locals.map LocalFile.path ∧ p ∈ (buildRemoteMap ents).map Prod.fst) := by
    intro p
    rw [← lookupKey_isSome_iff_mem_keys, hl p]
    by_cases hp : p ∈ locals.map LocalFile.path
    · simp [hp]
    · simp [hp, lookupKey_isSome_iff_mem_keys]
  have hremnd : (((walkLocals hash none cb locals
      ⟨buildRemoteMap ents, [], [], s0⟩).1.remaining).map Prod.fst).Nodup :=
    walkLocals_remaining_nodup hash none cb locals _ (by simpa using buildRemoteMap_keys_nodup ents)
  have haccteq : ((drainRemaining cb
      (walkLocals hash none cb locals ⟨buildRemoteMap ents, [], [], s0⟩).1.remaining
      (walkLocals hash none cb locals ⟨buildRemoteMap ents, [], [], s0⟩).1).1.acct.map Prod.fst)
      = locals.map LocalFile.path ++
        ((walkLocals hash none cb locals
          ⟨buildRemoteMap ents, [], [], s0⟩).1.remaining).map Prod.fst := by
    rw [d1, hacct]
    simp [hpairs, List.map_map, Function.comp_def]
  have hcallseq : ((drainRemaining cb
      (walkLocals hash none cb locals ⟨buildRemoteMap ents, [], [], s0⟩).1.remaining
      (walkLocals hash none cb locals ⟨buildRemoteMap ents, [], [], s0⟩).1).1.calls.map Prod.fst)
      = cl.map Prod.fst ++
        ((walkLocals hash none cb locals
          ⟨buildRemoteMap ents, [], [], s0⟩).1.remaining).map Prod.fst := by
    rw [d2, hcalls]
    simp [List.map_map, Function.comp_def]
  have hcallsub : ((drainRemaining cb
      (walkLocals hash none cb locals ⟨buildRemoteMap ents, [], [], s0⟩).1.remaining
      (walkLocals hash none cb locals ⟨buildRemoteMap ents, [], [], s0⟩).1).1.calls.map Prod.fst).Sublist
      (locals.map LocalFile.path ++
        ((walkLocals hash none cb locals
          ⟨buildRemoteMap ents, [], [], s0⟩).1.remaining).map Prod.fst) := by
    rw [hcallseq]
    exact (hpairs ▸ hsub).append (List.Sublist.refl _)
  have hnodup : (locals.map LocalFile.path ++
      ((walkLocals hash none cb locals
        ⟨buildRemoteMap ents, [], [], s0⟩).1.remaining).map Prod.fst).Nodup := by
    refine hnd.append hremnd ?_
    intro p hp1 hp2
    exact ((hremkeys p).mp hp2).1 hp1
  refine ⟨haccteq ▸ hnodup, ?_, hnodup.sublist hcallsub⟩
  intro p
  rw [haccteq]
  simp only [List.mem_append]
  constructor
  · rintro (hp | hp)
    · exact Or.inl hp
    · exact Or.inr ((hremkeys p).mp hp).2
  · rintro (hp | hp)
    · exact Or.inl hp
    · by_cases hpl : p ∈ locals.map LocalFile.path
      · exact Or.inl hpl
      · exact Or.inr ((hremkeys p).mpr ⟨hpl, hp⟩)

theorem diff_accounts_each_path_once_witness :
    ((((walkDiffs (fun _ => "h") (Except.ok [Metadata.file "b" ⟨1, "h"⟩]) none
        [⟨"a", [1]⟩] none (fun _ _ (_ : Unit) => ((), none)) ()).1.acct.map Prod.fst).Nodup) ∧
      (∀ p, p ∈ (walkDiffs (fun _ => "h") (Except.ok [Metadata.file "b" ⟨1, "h"⟩]) none
          [⟨"a", [1]⟩] none (fun _ _ (_ : Unit) => ((), none)) ()).1.acct.map Prod.fst ↔
        (p ∈ [LocalFile.mk "a" [1]].map LocalFile.path ∨
          p ∈ (buildRemoteMap [Metadata.file "b" ⟨1, "h"⟩]).map Prod.fst)) ∧
      (((walkDiffs (fun _ => "h") (Except.ok [Metadata.file "b" ⟨1, "h"⟩]) none
        [⟨"a", [1]⟩] none (fun _ _ (_ : Unit) => ((), none)) ()).1.calls.map Prod.fst).Nodup)) :=
  diff_accounts_each_path_once (fun _ => "h") [Metadata.file "b" ⟨1, "h"⟩] none
    [⟨"a", [1]⟩] (fun _ _ (_ : Unit) => ((), none)) () (by decide) (fun _ _ _ => rfl)

/-! ## Claim C8: absent namespace -/

/-- C8.  A listing error whose message carries the `path/not_found/`
prefix is recovered: with the follow-up folder creation succeeding, the
walk proceeds against an empty remote inventory, classifies every local
file `OnlyExistsLocal`, and returns no error.  Any other listing error is
returned to the caller unchanged, with nothing emitted. -/
theorem absent_namespace_recovered {σ : Type} (hash : Bytes → String)
    (locals : List LocalFile) (cb : String → DiffResult → σ → σ × Option Err)
    (s0 : σ) (e : Err) (cf : Option Err) (skip : Option (String → Nat → Bool))
    (hcb : ∀ p d s, (cb p d s).2 = none) :
    (goHasPre "path/not_found/" e = true →
      (walkDiffs hash (Except.error e) none locals none cb s0).1.calls =
          locals.map (fun f => (f.path, DiffResult.OnlyExistsLocal)) ∧
        (walkDiffs hash (Except.error e) none locals none cb s0).2 = none) ∧
      (goHasPre "path/not_found/" e = false →
        walkDiffs hash (Except.error e) cf locals skip cb s0 =
          (⟨[], [], [], s0⟩, some e)) := by
  constructor
  · intro hsw
    have hred : walkDiffs hash (Except.error e) none locals none cb s0 =
        diffCore hash (buildRemoteMap []) locals none cb s0 := by
      simp only [walkDiffs, hsw, if_pos]
    rw [hred]
    obtain ⟨h1, h2, h3⟩ := walkLocals_empty_remote hash cb hcb locals
      ⟨buildRemoteMap [], [], [], s0⟩ rfl
    unfold diffCore
    rcases hw : walkLocals hash none cb locals ⟨buildRemoteMap [], [], [], s0⟩ with ⟨aw, er⟩
    rw [hw] at h1 h2 h3
    simp only at h1 h2 h3
    subst h3
    refine ⟨?_, ?_⟩
    · show (drainRemaining cb aw.remaining aw).1.calls = _
      rw [h2]
      show aw.calls = _
      simpa using h1
    · show (drainRemaining cb aw.remaining aw).2 = none
      rw [h2]
      rfl
  · intro hsw
    simp only [walkDiffs, hsw]
    rfl

theorem absent_namespace_recovered_witness :
    ((walkDiffs (fun _ => "h") (Except.error "path/not_found/z") none [⟨"w", [7]⟩] none
        (fun _ _ (_ : Unit) => ((), none)) ()).1.calls
        = [("w", DiffResult.OnlyExistsLocal)] ∧
      (walkDiffs (fun _ => "h") (Except.error "path/not_found/z") none [⟨"w", [7]⟩] none
        (fun _ _ (_ : Unit) => ((), none)) ()).2 = none) ∧
    (walkDiffs (fun _ => "h") (Except.error "listing exploded") (some "cfe") [⟨"w", [7]⟩]
        (some (fun _ _ => false)) (fun _ _ (_ : Unit) => ((), none)) ())
      = (⟨[], [], [], ()⟩, some "listing exploded") :=
  ⟨(absent_namespace_recovered (fun _ => "h") [⟨"w", [7]⟩]
      (fun _ _ (_ : Unit) => ((), none)) () "path/not_found/z" none none
      (fun _ _ _ => rfl)).1 (by decide),
   (absent_namespace_recovered (fun _ => "h") [⟨"w", [7]⟩]
      (fun _ _ (_ : Unit) => ((), none)) () "listing exploded" (some "cfe")
      (some (fun _ _ => false)) (fun _ _ _ => rfl)).2 (by decide)⟩

/-! ## Claim C9: a callback error on a hash-difference Mismatch is lost -/

/-- C9 (code_bug evidence).  Local file `"x"` matches the declared remote
size but not the declared hash, so the walk emits `("x", Mismatch)`; the
callback returns the error `"boom"` on every `Mismatch`, yet the walk does
not stop: the remaining remote entry `"y"` is still passed to the callback
as `OnlyExistsRemote` and WalkDiffs returns nil — the `hash, err :=`
shadowing in the equal-size branch drops the callback's error, where the
claim (and the intent of the dead `if err != nil` check that follows)
demands an immediate abort returning `"boom"`. -/
theorem callback_error_swallowed :
    ((walkDiffs (fun _ => "L")
        (Except.ok [Metadata.file "x" ⟨1, "R"⟩, Metadata.file "y" ⟨1, "R"⟩]) none
        [⟨"x", [1]⟩] none
        (fun _ d (_ : Unit) => ((), if d = DiffResult.Mismatch then some "boom" else none))
        ()).1.calls
      = [("x", DiffResult.Mismatch), ("y", DiffResult.OnlyExistsRemote)]) ∧
    ((walkDiffs (fun _ => "L")
        (Except.ok [Metadata.file "x" ⟨1, "R"⟩, Metadata.file "y" ⟨1, "R"⟩]) none
        [⟨"x", [1]⟩] none
        (fun _ d (_ : Unit) => ((), if d = DiffResult.Mismatch then some "boom" else none))
        ()).2 = none) := by
  decide

/-! ## Claim C4: comparison of a path present on both sides -/

/-- C4.  For a local file whose relative path is in the remote inventory:
a declared-size difference yields a `Mismatch` emission, and the step that
decides it is the same function for every hash — the hash is not computed;
with equal declared sizes the local content hash is compared against the
declared remote hash, a difference yields a `Mismatch` emission, and
equality classifies the path as `Match` with the emission suppressed (the
path reaches the callback under no classification); a size match alone is
never treated as content equality. -/
theorem size_then_hash_compare {σ : Type} (hash : Bytes → String)
    (ents : List Metadata) (cf : Option Err) (locals : List LocalFile)
    (cb : String → DiffResult → σ → σ × Option Err) (s0 : σ)
    (f : LocalFile) (m : FileMetadata)
    (hnd : (locals.map LocalFile.path).Nodup)
    (hcb : ∀ p d s, (cb p d s).2 = none)
    (hf : f ∈ locals)
    (hlook : lookupKey (buildRemoteMap ents) f.path = some m) :
    (m.size ≠ f.content.length →
      (f.path, DiffResult.Mismatch) ∈
          (walkDiffs hash (Except.ok ents) cf locals none cb s0).1.calls ∧
        ∀ (hash2 : Bytes → String) (a : WalkAcc σ),
          lookupKey a.remaining f.path = some m →
          walkStep hash none cb a f = walkStep hash2 none cb a f) ∧
    (m.size = f.content.length → m.contentHash ≠ hash f.content →
      (f.path, DiffResult.Mismatch) ∈
        (walkDiffs hash (Except.ok ents) cf locals none cb s0).1.calls) ∧
    (m.size = f.content.length → m.contentHash = hash f.content →
      (f.path, DiffResult.Match) ∈
          (walkDiffs hash (Except.ok ents) cf locals none cb s0).1.acct ∧
        ∀ e ∈ (walkDiffs hash (Except.ok ents) cf locals none cb s0).1.calls,
          e.1 ≠ f.path) := by
  have hok : walkDiffs hash (Except.ok ents) cf locals none cb s0 =
      diffCore hash (buildRemoteMap ents) locals none cb s0 := rfl
  rw [hok, diffCore_of_noerr hash none cb hcb (buildRemoteMap ents) locals s0]
  obtain ⟨c1, c2, c3⟩ := walkLocals_classify hash cb hcb locals
    ⟨buildRemoteMap ents, [], [], s0⟩ f m hnd hf hlook
  obtain ⟨d1, d2, _, _⟩ := drainRemaining_all cb (fun p s => hcb p DiffResult.OnlyExistsRemote s)
    (walkLocals hash none cb locals ⟨buildRemoteMap ents, [], [], s0⟩).1.remaining
    (walkLocals hash none cb locals ⟨buildRemoteMap ents, [], [], s0⟩).1
  have hl := walkLocals_remaining_lookup hash cb hcb locals ⟨buildRemoteMap ents, [], [], s0⟩
  refine ⟨?_, ?_, ?_⟩
  · intro hsize
    refine ⟨?_, ?_⟩
    · rw [d2]
      exact List.mem_append.mpr (Or.inl (c1 hsize))
    · intro hash2 a hlook'
      rw [walkStep_size_mismatch hash cb a f (hcb f.path DiffResult.Mismatch a.state) hlook' hsize,
        walkStep_size_mismatch hash2 cb a f (hcb f.path DiffResult.Mismatch a.state) hlook' hsize]
  · intro hsize hh
    rw [d2]
    exact List.mem_append.mpr (Or.inl (c2 hsize hh))
  · intro hsize hh
    obtain ⟨hm, hcalls⟩ := c3 hsize hh
    refine ⟨?_, ?_⟩
    · rw [d1]
      exact List.mem_append.mpr (Or.inl hm)
    · intro e he hef
      rw [d2] at he
      rcases List.mem_append.mp he with hmem | hmem
      · have := hcalls e hmem hef
        simp at this
      · rcases List.mem_map.mp hmem with ⟨x, hx, hxe⟩
        have hxf : x.1 = f.path := by rw [← hef, ← hxe]
        have hsome := lookupKey_isSome_of_mem (hxf ▸ hx :
          (f.path, x.2) ∈ (walkLocals hash none cb locals
            ⟨buildRemoteMap ents, [], [], s0⟩).1.remaining)
        rw [hl f.path, if_pos (List.mem_map_of_mem LocalFile.path hf)] at hsome
        simp at hsome

theorem size_then_hash_compare_witness :
    ((⟨1, "R"⟩ : FileMetadata).size = (LocalFile.mk "x" [9]).content.length ∧
      (⟨1, "R"⟩ : FileMetadata).contentHash ≠ (fun _ => "L") (LocalFile.mk "x" [9]).content ∧
      ("x", DiffResult.Mismatch) ∈
        (walkDiffs (fun _ => "L") (Except.ok [Metadata.file "x" ⟨1, "R"⟩]) none
          [⟨"x", [9]⟩] none (fun _ _ (_ : Unit) => ((), none)) ()).1.calls) :=
  ⟨by decide, by decide,
    (size_then_hash_compare (fun _ => "L") [Metadata.file "x" ⟨1, "R"⟩] none
      [⟨"x", [9]⟩] (fun _ _ (_ : Unit) => ((), none)) () ⟨"x", [9]⟩ ⟨1, "R"⟩
      (by decide) (fun _ _ _ => rfl) (by decide) (by decide)).2.1 (by decide) (by decide)⟩

/-! ## The reconcilers (src/repo.go, lines 192-245) and the storage backend

`ProjectRepository.Upload` and `.Pull` hand `WalkDiffs` a callback that
switches on the `DiffResult` and calls the storage service (upload,
download, delete) or the local filesystem (`os.RemoveAll`).  The service
is the Go interface `StorageService`; it is modelled as a record of state
transformers.  Two instances are used: an effect-trace backend recording
the operation sequence the Dropbox implementations perform (for the
action-mapping claims), and a file-store backend giving upload/delete
their state semantics (for the idempotence claim). -/

/-- Go `path.Join` on two already-clean path segments. -/
def pathJoin (a b : String) : String :=
  if a = "" then b else if b = "" then a else a ++ "/" ++ b

/-- Go `path.Dir` on a clean path (the directory part before the final
separator, `"."` when there is none). -/
def pathDir (s : String) : String :=
  let parts := s.splitOn "/"
  if parts.length ≤ 1 then "." else String.intercalate "/" parts.dropLast

/-- StorageService: the four-operation backend interface consumed by the
reconcilers (WalkDiffs is invoked separately). -/
structure StorageOps (σ : Type) where
  upload : String → String → σ → σ × Option Err
  download : String → String → σ → σ × Option Err
  delete : String → σ → σ × Option Err

/-- One backend or filesystem effect of a reconciler action. -/
inductive FsOp where
  | upload (localPath remotePath : String)
  | mkdirAll (dir : String)
  | createWrite (localPath remotePath : String)
  | deleteRemote (remotePath : String)
  | removeAllLocal (localPath : String)
deriving DecidableEq, Repr

/-- Effect-trace backend: `Upload` commits the local file to the remote
path in overwrite mode (part_005 line 145); `Download` (part_005 lines
231-250) runs `MkdirAll(path.Dir(local))` and then creates and writes the
local file; `Delete` issues the remote delete. -/
def dropboxEffects : StorageOps (List FsOp) where
  upload := fun localPath remotePath ops => (ops ++ [FsOp.upload localPath remotePath], none)
  download := fun localPath remotePath ops =>
    (ops ++ [FsOp.mkdirAll (pathDir localPath), FsOp.createWrite localPath remotePath], none)
  delete := fun remotePath ops => (ops ++ [FsOp.deleteRemote remotePath], none)

/-- Effect trace of `os.RemoveAll` on a local path (repo.go line 240). -/
def removeAllEffects (localPath : String) (ops : List FsOp) : List FsOp × Option Err :=
  (ops ++ [FsOp.removeAllLocal localPath], none)

abbrev FileStore := List (String × Bytes)

/-- File-store backend for push: `Upload` reads the local file from the
fixed local tree and overwrites the remote path with its bytes; `Delete`
removes the remote path; `Download` is never reached by the push
callback. -/
def dropboxStore (localFs : FileStore) : StorageOps FileStore where
  upload := fun localPath remotePath st =>
    match lookupKey localFs localPath with
    | some content => (setKey st remotePath content, none)
    | none => (st, some "upload: open failed")
  download := fun _ _ st => (st, none)
  delete := fun remotePath st => (removeKey st remotePath, none)

/-- The callback `ProjectRepository.Upload` passes to WalkDiffs (repo.go
lines 202-218): Match — nothing; Mismatch or OnlyExistsLocal — upload
`path.Join(folder, file)` to `path.Join(remoteFolder, file)`;
OnlyExistsRemote — delete `path.Join(remoteFolder, file)`. -/
def uploadCallback {σ : Type} (s : StorageOps σ) (folder remoteFolder : String) :
    String → DiffResult → σ → σ × Option Err :=
  fun file diff st =>
    match diff with
    | DiffResult.Match => (st, none)
    | DiffResult.Mismatch | DiffResult.OnlyExistsLocal =>
        s.upload (pathJoin folder file) (pathJoin remoteFolder file) st
    | DiffResult.OnlyExistsRemote => s.delete (pathJoin remoteFolder file) st

/-- The callback `ProjectRepository.Pull` passes to WalkDiffs (repo.go
lines 228-243): Match — nothing; Mismatch or OnlyExistsRemote — download
to `path.Join(folder, file)`; OnlyExistsLocal — `os.RemoveAll` of the
local path, modelled by the `rmAll` parameter. -/
def pullCallback {σ : Type} (s : StorageOps σ) (rmAll : String → σ → σ × Option Err)
    (folder remoteFolder : String) : String → DiffResult → σ → σ × Option Err :=
  fun file diff st =>
    match diff with
    | DiffResult.Match => (st, none)
    | DiffResult.Mismatch | DiffResult.OnlyExistsRemote =>
        s.download (pathJoin folder file) (pathJoin remoteFolder file) st
    | DiffResult.OnlyExistsLocal => rmAll (pathJoin folder file) st

/-- Delivery of an emitted diff stream to a callback, one classification
at a time, in emission order, stopping at the first error — exactly how
WalkDiffs invokes the reconciler callbacks. -/
def runCallback {σ : Type} (cb : String → DiffResult → σ → σ × Option Err) :
    List (String × DiffResult) → σ → σ × Option Err
  | [], st => (st, none)
  | (p, d) :: rest, st =>
      match cb p d st with
      | (st', none) => runCallback cb rest st'
      | (st', some e) => (st', some e)

/-- The push action table as the specification states it: Match — no
action; Mismatch or OnlyLocal — one upload of the local file to the
corresponding remote path; OnlyRemote — one delete of the remote file. -/
def pushActionsSpec (folder remoteFolder file : String) : DiffResult → List FsOp
  | DiffResult.Match => []
  | DiffResult.Mismatch | DiffResult.OnlyExistsLocal =>
      [FsOp.upload (pathJoin folder file) (pathJoin remoteFolder file)]
  | DiffResult.OnlyExistsRemote => [FsOp.deleteRemote (pathJoin remoteFolder file)]

/-- The pull action table as the specification states it: Match — no
action; Mismatch or OnlyRemote — download of the remote file to the
corresponding local path, with the parent directory created before the
write; OnlyLocal — deletion of the local file. -/
def pullActionsSpec (folder remoteFolder file : String) : DiffResult → List FsOp
  | DiffResult.Match => []
  | DiffResult.Mismatch | DiffResult.OnlyExistsRemote =>
      [FsOp.mkdirAll (pathDir (pathJoin folder file)),
       FsOp.createWrite (pathJoin folder file) (pathJoin remoteFolder file)]
  | DiffResult.OnlyExistsLocal => [FsOp.removeAllLocal (pathJoin folder file)]

/-! ## Claim C6: push action mapping -/

/-- C6.  Delivering any emitted diff stream to the push callback performs,
in emission order, exactly the actions the specification's table assigns:
nothing for Match, one overwrite upload for Mismatch/OnlyLocal, one remote
delete for OnlyRemote; and an upload overwrites — after uploading, the
remote path holds the uploaded bytes whatever was there before. -/
theorem push_maps_classifications_to_actions (folder remoteFolder : String)
    (trace : List (String × DiffResult)) (ops0 : List FsOp) :
    runCallback (uploadCallback dropboxEffects folder remoteFolder) trace ops0 =
      (ops0 ++ (trace.map (fun e => pushActionsSpec folder remoteFolder e.1 e.2)).flatten,
        none) ∧
    (∀ (localFs : FileStore) (l r : String) (st : FileStore) (c : Bytes),
      lookupKey localFs l = some c →
      lookupKey (((dropboxStore localFs).upload l r st).1) r = some c) := by
  constructor
  · induction trace generalizing ops0 with
    | nil => simp [runCallback]
    | cons e rest ih =>
        obtain ⟨p, d⟩ := e
        cases d
        · show runCallback (uploadCallback dropboxEffects folder remoteFolder) rest ops0 = _
          rw [ih]
          simp [pushActionsSpec]
        · show runCallback (uploadCallback dropboxEffects folder remoteFolder) rest
            (ops0 ++ [FsOp.upload (pathJoin folder p) (pathJoin remoteFolder p)]) = _
          rw [ih]
          simp [pushActionsSpec]
        · show runCallback (uploadCallback dropboxEffects folder remoteFolder) rest
            (ops0 ++ [FsOp.deleteRemote (pathJoin remoteFolder p)]) = _
          rw [ih]
          simp [pushActionsSpec]
        · show runCallback (uploadCallback dropboxEffects folder remoteFolder) rest
            (ops0 ++ [FsOp.upload (pathJoin folder p) (pathJoin remoteFolder p)]) = _
          rw [ih]
          simp [pushActionsSpec]
  · intro localFs l r st c hl
    simp [dropboxStore, hl, lookupKey_setKey]

theorem push_maps_classifications_to_actions_witness :
    runCallback (uploadCallback dropboxEffects "base/p" "/p")
        [("a.txt", DiffResult.OnlyExistsLocal), ("b.txt", DiffResult.Match),
         ("c.txt", DiffResult.OnlyExistsRemote)] [] =
      (([("a.txt", DiffResult.OnlyExistsLocal), ("b.txt", DiffResult.Match),
          ("c.txt", DiffResult.OnlyExistsRemote)].map
          (fun e => pushActionsSpec "base/p" "/p" e.1 e.2)).flatten, none) ∧
    lookupKey (((dropboxStore [("base/p/a.txt", [1])]).upload "base/p/a.txt" "/p/a.txt"
        [("/p/a.txt", [2])]).1) "/p/a.txt" = some [1] :=
  ⟨by
    have h := (push_maps_classifications_to_actions "base/p" "/p"
      [("a.txt", DiffResult.OnlyExistsLocal), ("b.txt", DiffResult.Match),
       ("c.txt", DiffResult.OnlyExistsRemote)] []).1
    simpa using h,
   (push_maps_classifications_to_actions "base/p" "/p" [] []).2
     [("base/p/a.txt", [1])] "base/p/a.txt" "/p/a.txt" [("/p/a.txt", [2])] [1] (by decide)⟩

/-! ## Claim C7: pull action mapping -/

/-- C7.  Delivering any emitted diff stream to the pull callback performs,
in emission order, exactly the actions the specification's table assigns:
nothing for Match; for Mismatch/OnlyRemote a download of the remote file
to the corresponding local path in which the missing parent directories
are created (MkdirAll of the local file's directory) strictly before the
local file is created and written; for OnlyLocal a removal of the local
file. -/
theorem pull_maps_classifications_to_actions (folder remoteFolder : String)
    (trace : List (String × DiffResult)) (ops0 : List FsOp) :
    runCallback (pullCallback dropboxEffects removeAllEffects folder remoteFolder) trace ops0 =
      (ops0 ++ (trace.map (fun e => pullActionsSpec folder remoteFolder e.1 e.2)).flatten,
        none) := by
  induction trace generalizing ops0 with
  | nil => simp [runCallback]
  | cons e rest ih =>
      obtain ⟨p, d⟩ := e
      cases d
      · show runCallback (pullCallback dropboxEffects removeAllEffects folder remoteFolder)
          rest ops0 = _
        rw [ih]
        simp [pullActionsSpec]
      · show runCallback (pullCallback dropboxEffects removeAllEffects folder remoteFolder)
          rest (ops0 ++ [FsOp.mkdirAll (pathDir (pathJoin folder p)),
            FsOp.createWrite (pathJoin folder p) (pathJoin remoteFolder p)]) = _
        rw [ih]
        simp [pullActionsSpec]
      · show runCallback (pullCallback dropboxEffects removeAllEffects folder remoteFolder)
          rest (ops0 ++ [FsOp.mkdirAll (pathDir (pathJoin folder p)),
            FsOp.createWrite (pathJoin folder p) (pathJoin remoteFolder p)]) = _
        rw [ih]
        simp [pullActionsSpec]
      · show runCallback (pullCallback dropboxEffects removeAllEffects folder remoteFolder)
          rest (ops0 ++ [FsOp.removeAllLocal (pathJoin folder p)]) = _
        rw [ih]
        simp [pullActionsSpec]

/-! ## Claim C5: idempotence of push

`ProjectRepository.Upload` (repo.go lines 192-219) runs WalkDiffs over the
project folder against the remote namespace with the push callback.  The
composition is closed with the file-store backend: the listing WalkDiffs
starts from is the honest recursive listing of the current remote store
(declared size and hash computed from the stored bytes, paths made
relative with `filepath.Rel`), uploads read the local tree, and deletes
remove remote paths. -/

/-- Go `filepath.Rel(base, target)` for a target lying under `base`:
drops `base` and the following separator. -/
def relOf (base full : String) : String :=
  String.mk (full.data.drop (base.length + 1))

theorem relOf_pathJoin (base r : String) (hb : base ≠ "") :
    relOf base (pathJoin base r) = r := by
  by_cases hr : r = ""
  · subst hr
    have hdrop : base.data.drop (base.length + 1) = [] :=
      List.drop_eq_nil_of_le (Nat.le_succ _)
    simp only [pathJoin, if_neg hb, if_pos rfl]
    show String.mk (base.data.drop (base.length + 1)) = ""
    rw [hdrop]
  · have hdata : (base ++ "/" ++ r).data = (base.data ++ ['/']) ++ r.data := by
      simp
    have hlen : (base.data ++ ['/']).length = base.length + 1 := by
      rw [List.length_append]
      rfl
    have hkey : relOf base (base ++ "/" ++ r) = r := by
      unfold relOf
      rw [hdata, ← hlen, List.drop_left]
    simpa [pathJoin, hb, hr] using hkey

theorem pathJoin_inj {base r₁ r₂ : String} (hb : base ≠ "")
    (h : pathJoin base r₁ = pathJoin base r₂) : r₁ = r₂ := by
  have := congrArg (relOf base) h
  rwa [relOf_pathJoin base r₁ hb, relOf_pathJoin base r₂ hb] at this

/-- The full local paths and contents `s.Upload` reads, as `path.Join` of
the project folder and the relative path. -/
def localStore (folder : String) (localFiles : List LocalFile) : FileStore :=
  localFiles.map (fun f => (pathJoin folder f.path, f.content))

theorem lookup_localStore {folder : String} {localFiles : List LocalFile}
    (hfolder : folder ≠ "") (hnd : (localFiles.map LocalFile.path).Nodup)
    {f : LocalFile} (hf : f ∈ localFiles) :
    lookupKey (localStore folder localFiles) (pathJoin folder f.path) = some f.content := by
  induction localFiles with
  | nil => simp at hf
  | cons g rest ih =>
      simp only [List.map_cons, List.nodup_cons] at hnd
      rcases List.mem_cons.mp hf with hfg | hfg
      · subst hfg
        simp [localStore, lookupKey]
      · have hne : pathJoin folder g.path ≠ pathJoin folder f.path := by
          intro hc
          exact hnd.1 ((pathJoin_inj hfolder hc) ▸ List.mem_map_of_mem LocalFile.path hfg)
        simp only [localStore, List.map_cons, lookupKey, if_neg hne]
        exact ih hnd.2 hfg

/-- The backend's honest recursive listing of the remote store: one file
entry per stored path, its path made relative to the namespace, with the
declared size and content hash computed from the stored bytes. -/
def inventoryOf (hash : Bytes → String) (remoteFolder : String) (st : FileStore) :
    List Metadata :=
  st.map (fun e => Metadata.file (relOf remoteFolder e.1) ⟨e.2.length, hash e.2⟩)

/-- ProjectRepository.Upload (repo.go lines 192-219), composed with
part_005's WalkDiffs over the current remote store: list the namespace,
walk the local tree, and apply the push callback over the file-store
backend.  Returns the resulting remote store and WalkDiffs' error. -/
def ProjectRepositoryUpload (hash : Bytes → String) (folder remoteFolder : String)
    (localFiles : List LocalFile) (st : FileStore) : FileStore × Option Err :=
  ((walkDiffs hash (Except.ok (inventoryOf hash remoteFolder st)) none localFiles none
      (uploadCallback (dropboxStore (localStore folder localFiles)) folder remoteFolder)
      st).1.state,
   (walkDiffs hash (Except.ok (inventoryOf hash remoteFolder st)) none localFiles none
      (uploadCallback (dropboxStore (localStore folder localFiles)) folder remoteFolder)
      st).2)

theorem buildRemoteMap_of_files (l : List (String × FileMetadata))
    (hnd : (l.map Prod.fst).Nodup) :
    buildRemoteMap (l.map (fun e => Metadata.file e.1 e.2)) = l := by
  suffices haux : ∀ (l : List (String × FileMetadata)) (acc : RemoteMap),
      (∀ k ∈ l.map Prod.fst, lookupKey acc k = none) → (l.map Prod.fst).Nodup →
      (l.map (fun e => Metadata.file e.1 e.2)).foldl
        (fun m e =>
          match e with
          | Metadata.file p v => setKey m p v
          | Metadata.folder _ => m) acc = acc ++ l by
    simpa using haux l [] (by intro k _; rfl) hnd
  intro l
  induction l with
  | nil => intro acc _ _; simp
  | cons e rest ih =>
      intro acc hacc hndl
      obtain ⟨k, v⟩ := e
      simp only [List.map_cons, List.nodup_cons] at hndl
      have hk : lookupKey acc k = none := hacc k (by simp)
      simp only [List.map_cons, List.foldl_cons]
      rw [show (setKey acc k v) = acc ++ [(k, v)] from setKey_of_lookup_none hk v] at *
      rw [ih (acc ++ [(k, v)]) ?_ hndl.2]
      · simp
      · intro k' hk'
        rw [lookupKey_append]
        rw [hacc k' (by simp [hk'])]
        have : ¬ k = k' := fun hc => hndl.1 (hc ▸ hk')
        simp [lookupKey, this]

theorem eq_nil_of_lookup_none {β : Type} {l : List (String × β)}
    (h : ∀ p, lookupKey l p = none) : l = [] := by
  cases l with
  | nil => rfl
  | cons e rest =>
      obtain ⟨k, v⟩ := e
      have := h k
      simp [lookupKey] at this

theorem lookup_inventory (hash : Bytes → String) (rF : String) (st : FileStore)
    (hb : rF ≠ "") (hnd : (st.map Prod.fst).Nodup)
    (hwf : ∀ e ∈ st, ∃ r, e.1 = pathJoin rF r) (r : String) :
    lookupKey (buildRemoteMap (inventoryOf hash rF st)) r =
      Option.map (fun c => FileMetadata.mk c.length (hash c)) (lookupKey st (pathJoin rF r)) := by
  have hinv : inventoryOf hash rF st =
      (st.map (fun e => (relOf rF e.1, FileMetadata.mk e.2.length (hash e.2)))).map
        (fun e => Metadata.file e.1 e.2) := by
    simp [inventoryOf, List.map_map, Function.comp_def]
  have hkeysnd : ((st.map (fun e => (relOf rF e.1, FileMetadata.mk e.2.length (hash e.2)))).map
      Prod.fst).Nodup := by
    have heq : (st.map (fun e => (relOf rF e.1, FileMetadata.mk e.2.length (hash e.2)))).map
        Prod.fst = (st.map Prod.fst).map (relOf rF) := by
      simp [List.map_map, Function.comp_def]
    rw [heq]
    refine List.Nodup.map_on ?_ hnd
    intro k1 hk1 k2 hk2 hrel
    rcases List.mem_map.mp hk1 with ⟨e1, he1, hke1⟩
    rcases List.mem_map.mp hk2 with ⟨e2, he2, hke2⟩
    obtain ⟨r1, hr1⟩ := hwf e1 he1
    obtain ⟨r2, hr2⟩ := hwf e2 he2
    rw [← hke1, hr1, ← hke2, hr2] at hrel ⊢
    rw [relOf_pathJoin rF r1 hb, relOf_pathJoin rF r2 hb] at hrel
    rw [hrel]
  rw [hinv, buildRemoteMap_of_files _ hkeysnd]
  clear hinv hkeysnd hnd
  induction st with
  | nil => simp [lookupKey]
  | cons e rest ih =>
      obtain ⟨k, c⟩ := e
      obtain ⟨rk, hrk⟩ := hwf (k, c) (by simp)
      simp only at hrk
      subst hrk
      have hiff : (relOf rF (pathJoin rF rk) = r) ↔ (pathJoin rF rk = pathJoin rF r) := by
        rw [relOf_pathJoin rF rk hb]
        constructor
        · intro h; rw [h]
        · intro h; exact pathJoin_inj hb h
      simp only [List.map_cons, lookupKey]
      by_cases hc : relOf rF (pathJoin rF rk) = r
      · rw [if_pos hc, if_pos (hiff.mp hc)]
        rfl
      · rw [if_neg hc, if_neg (fun hc2 => hc (hiff.mpr hc2))]
        exact ih (fun e he => hwf e (List.mem_cons_of_mem _ he))

theorem uploadCallback_store_local {lfs : FileStore} {folder rF p : String}
    {c : Bytes} (hl : lookupKey lfs (pathJoin folder p) = some c) (d : DiffResult)
    (hd : d = DiffResult.OnlyExistsLocal ∨ d = DiffResult.Mismatch) (st : FileStore) :
    uploadCallback (dropboxStore lfs) folder rF p d st =
      (setKey st (pathJoin rF p) c, none) := by
  rcases hd with rfl | rfl <;> simp [uploadCallback, dropboxStore, hl]

theorem uploadCallback_remote (lfs : FileStore) (folder rF p : String) (st : FileStore) :
    uploadCallback (dropboxStore lfs) folder rF p DiffResult.OnlyExistsRemote st =
      (removeKey st (pathJoin rF p), none) := by
  simp [uploadCallback, dropboxStore]

theorem drainRemaining_push_state (lfs : FileStore) (folder rF : String) :
    ∀ (rem : List (String × FileMetadata)) (a : WalkAcc FileStore),
    (drainRemaining (uploadCallback (dropboxStore lfs) folder rF) rem a).2 = none ∧
      (∀ k, lookupKey
          (drainRemaining (uploadCallback (dropboxStore lfs) folder rF) rem a).1.state k =
        if k ∈ rem.map (fun e => pathJoin rF e.1) then none else lookupKey a.state k) ∧
      ((a.state.map Prod.fst).Nodup →
        ((drainRemaining (uploadCallback (dropboxStore lfs) folder rF)
          rem a).1.state.map Prod.fst).Nodup) := by
  intro rem
  induction rem with
  | nil =>
      intro a
      exact ⟨rfl, fun k => by simp [drainRemaining],
        fun h => by simpa [drainRemaining] using h⟩
  | cons e rest ih =>
      intro a
      obtain ⟨p, m⟩ := e
      have hcbr := uploadCallback_remote lfs folder rF p a.state
      have hred : drainRemaining (uploadCallback (dropboxStore lfs) folder rF)
          ((p, m) :: rest) a =
          drainRemaining (uploadCallback (dropboxStore lfs) folder rF) rest
            { a with
                acct := a.acct ++ [(p, DiffResult.OnlyExistsRemote)],
                calls := a.calls ++ [(p, DiffResult.OnlyExistsRemote)],
                state := removeKey a.state (pathJoin rF p) } := by
        simp only [drainRemaining, hcbr]
      rw [hred]
      obtain ⟨h1, h2, h3⟩ := ih _
      refine ⟨h1, ?_, ?_⟩
      · intro k
        rw [h2 k]
        by_cases hk : k ∈ rest.map (fun e => pathJoin rF e.1)
        · simp [hk]
        · simp only [if_neg hk]
          show lookupKey (removeKey a.state (pathJoin rF p)) k = _
          rw [lookupKey_removeKey]
          by_cases hkp : k = pathJoin rF p
          · rw [if_pos hkp, if_pos (by simp [hkp])]
          · rw [if_neg hkp, if_neg (by simp [List.mem_cons, hkp, hk])]
      · intro h
        exact h3 (keys_removeKey_nodup _ h)

theorem walkLocals_push (hash : Bytes → String) {folder rF : String}
    (hfolder : folder ≠ "") (hrF : rF ≠ "")
    (localFiles : List LocalFile) (hndL : (localFiles.map LocalFile.path).Nodup) :
    ∀ (fs : List LocalFile) (a : WalkAcc FileStore),
    (∀ f ∈ fs, f ∈ localFiles) →
    (fs.map LocalFile.path).Nodup →
    (∀ f ∈ fs, lookupKey a.remaining f.path =
      Option.map (fun c => FileMetadata.mk c.length (hash c))
        (lookupKey a.state (pathJoin rF f.path))) →
    (a.state.map Prod.fst).Nodup →
    (walkLocals hash none
        (uploadCallback (dropboxStore (localStore folder localFiles)) folder rF) fs a).2
        = none ∧
      (∀ f ∈ fs, ∃ c,
        lookupKey (walkLocals hash none
          (uploadCallback (dropboxStore (localStore folder localFiles)) folder rF)
          fs a).1.state (pathJoin rF f.path) = some c ∧
          c.length = f.content.length ∧ hash c = hash f.content) ∧
      (∀ k, lookupKey (walkLocals hash none
          (uploadCallback (dropboxStore (localStore folder localFiles)) folder rF)
          fs a).1.state k = lookupKey a.state k ∨
        ∃ f ∈ fs, k = pathJoin rF f.path) ∧
      (∀ p, lookupKey (walkLocals hash none
          (uploadCallback (dropboxStore (localStore folder localFiles)) folder rF)
          fs a).1.remaining p =
        if p ∈ fs.map LocalFile.path then none else lookupKey a.remaining p) ∧
      (((walkLocals hash none
          (uploadCallback (dropboxStore (localStore folder localFiles)) folder rF)
          fs a).1.state.map Prod.fst).Nodup) := by
  intro fs
  induction fs with
  | nil =>
      intro a _ _ _ hstnd
      exact ⟨rfl, by simp, fun k => Or.inl rfl, fun p => by simp [walkLocals],
        by simpa [walkLocals] using hstnd⟩
  | cons f fs ih =>
      intro a hsub hnd hrm hstnd
      have hfL : f ∈ localFiles := hsub f (List.mem_cons_self f fs)
      have hlfs : lookupKey (localStore folder localFiles) (pathJoin folder f.path)
          = some f.content := lookup_localStore hfolder hndL hfL
      simp only [List.map_cons, List.nodup_cons] at hnd
      have hrmf := hrm f (List.mem_cons_self f fs)
      have hjoin_ne : ∀ g : LocalFile, g ∈ fs →
          pathJoin rF g.path ≠ pathJoin rF f.path := by
        intro g hg hc
        exact hnd.1 ((pathJoin_inj hrF hc) ▸ List.mem_map_of_mem LocalFile.path hg)
      have hcont : ∀ (a' : WalkAcc FileStore),
          (∀ p, lookupKey a'.remaining p =
            if p = f.path then none else lookupKey a.remaining p) →
          (∃ cf, lookupKey a'.state (pathJoin rF f.path) = some cf ∧
            cf.length = f.content.length ∧ hash cf = hash f.content) →
          (∀ k, k ≠ pathJoin rF f.path → lookupKey a'.state k = lookupKey a.state k) →
          ((a'.state.map Prod.fst).Nodup) →
          walkLocals hash none
            (uploadCallback (dropboxStore (localStore folder localFiles)) folder rF)
            (f :: fs) a =
          walkLocals hash none
            (uploadCallback (dropboxStore (localStore folder localFiles)) folder rF)
            fs a' →
          ((walkLocals hash none
              (uploadCallback (dropboxStore (localStore folder localFiles)) folder rF)
              (f :: fs) a).2 = none ∧
            (∀ g ∈ f :: fs, ∃ c,
              lookupKey (walkLocals hash none
                (uploadCallback (dropboxStore (localStore folder localFiles)) folder rF)
                (f :: fs) a).1.state (pathJoin rF g.path) = some c ∧
                c.length = g.content.length ∧ hash c = hash g.content) ∧
            (∀ k, lookupKey (walkLocals hash none
                (uploadCallback (dropboxStore (localStore folder localFiles)) folder rF)
                (f :: fs) a).1.state k = lookupKey a.state k ∨
              ∃ g ∈ f :: fs, k = pathJoin rF g.path) ∧
            (∀ p, lookupKey (walkLocals hash none
                (uploadCallback (dropboxStore (localStore folder localFiles)) folder rF)
                (f :: fs) a).1.remaining p =
              if p ∈ (f :: fs).map LocalFile.path then none else lookupKey a.remaining p) ∧
            (((walkLocals hash none
                (uploadCallback (dropboxStore (localStore folder localFiles)) folder rF)
                (f :: fs) a).1.state.map Prod.fst).Nodup)) := by
        intro a' hrem' hstf' hstother' hnd' hred
        have hrm' : ∀ g ∈ fs, lookupKey a'.remaining g.path =
            Option.map (fun c => FileMetadata.mk c.length (hash c))
              (lookupKey a'.state (pathJoin rF g.path)) := by
          intro g hg
          have hgf : g.path ≠ f.path := by
            intro hc
            exact hnd.1 (hc ▸ List.mem_map_of_mem LocalFile.path hg)
          rw [hrem' g.path, if_neg hgf, hstother' _ (hjoin_ne g hg)]
          exact hrm g (List.mem_cons_of_mem _ hg)
        obtain ⟨e1, e2, e3, e4, e5⟩ :=
          ih a' (fun g hg => hsub g (List.mem_cons_of_mem _ hg)) hnd.2 hrm' hnd'
        rw [hred]
        refine ⟨e1, ?_, ?_, ?_, e5⟩
        · intro g hg
          rcases List.mem_cons.mp hg with hgf | hgf
          · subst hgf
            obtain ⟨cf, hcf, hcl, hch⟩ := hstf'
            refine ⟨cf, ?_, hcl, hch⟩
            rcases e3 (pathJoin rF g.path) with he | ⟨g', hg', hgp⟩
            · rw [he, hcf]
            · exact absurd hgp.symm (hjoin_ne g' hg')
          · exact e2 g hgf
        · intro k
          rcases e3 k with he | ⟨g', hg', hgp⟩
          · by_cases hk : k = pathJoin rF f.path
            · exact Or.inr ⟨f, List.mem_cons_self f fs, hk⟩
            · rw [he, hstother' k hk]
              exact Or.inl rfl
          · exact Or.inr ⟨g', List.mem_cons_of_mem _ hg', hgp⟩
        · intro p
          rw [e4 p]
          by_cases hp : p ∈ fs.map LocalFile.path
          · simp [hp]
          · rw [if_neg hp, hrem' p]
            by_cases hpf : p = f.path
            · simp [hpf]
            · simp [hpf, hp]
      cases hst : lookupKey a.state (pathJoin rF f.path) with
      | none =>
          have hlooknone : lookupKey a.remaining f.path = none := by
            rw [hrmf, hst]; rfl
          have hcbv := @uploadCallback_store_local (localStore folder localFiles)
            folder rF f.path f.content hlfs DiffResult.OnlyExistsLocal (Or.inl rfl) a.state
          have hstep : walkStep hash none
              (uploadCallback (dropboxStore (localStore folder localFiles)) folder rF) a f =
              ({ a with
                  acct := a.acct ++ [(f.path, DiffResult.OnlyExistsLocal)],
                  calls := a.calls ++ [(f.path, DiffResult.OnlyExistsLocal)],
                  state := setKey a.state (pathJoin rF f.path) f.content }, none) := by
            rw [walkStep_only_local hash _ a f hlooknone, hcbv]
          refine hcont
            { a with
                acct := a.acct ++ [(f.path, DiffResult.OnlyExistsLocal)],
                calls := a.calls ++ [(f.path, DiffResult.OnlyExistsLocal)],
                state := setKey a.state (pathJoin rF f.path) f.content }
            ?_ ?_ ?_ ?_ (by simp only [walkLocals, hstep])
          · intro p
            by_cases hpf : p = f.path
            · simp only [hpf, if_pos rfl]
              exact hlooknone
            · simp [hpf]
          · exact ⟨f.content, by rw [lookupKey_setKey, if_pos rfl], rfl, rfl⟩
          · intro k hk
            show lookupKey (setKey a.state (pathJoin rF f.path) f.content) k = _
            rw [lookupKey_setKey, if_neg hk]
          · exact keys_setKey_nodup _ hstnd
      | some c =>
          have hlooksome : lookupKey a.remaining f.path =
              some (FileMetadata.mk c.length (hash c)) := by
            rw [hrmf, hst]; rfl
          have hcbv := @uploadCallback_store_local (localStore folder localFiles)
            folder rF f.path f.content hlfs DiffResult.Mismatch (Or.inr rfl) a.state
          by_cases hsz : c.length = f.content.length
          · by_cases hh : hash c = hash f.content
            · have hstep := walkStep_hash_match hash
                (uploadCallback (dropboxStore (localStore folder localFiles)) folder rF)
                a f hlooksome hsz hh
              refine hcont
                { remaining := removeKey a.remaining f.path,
                  acct := a.acct ++ [(f.path, DiffResult.Match)],
                  calls := a.calls,
                  state := a.state }
                ?_ ?_ ?_ hstnd (by simp only [walkLocals, hstep])
              · intro p
                show lookupKey (removeKey a.remaining f.path) p = _
                rw [lookupKey_removeKey]
              · exact ⟨c, hst, hsz, hh⟩
              · intro k _
                rfl
            · have hstep0 := walkStep_hash_mismatch hash
                (uploadCallback (dropboxStore (localStore folder localFiles)) folder rF)
                a f hlooksome hsz hh
              have hstep : walkStep hash none
                  (uploadCallback (dropboxStore (localStore folder localFiles)) folder rF)
                  a f =
                  ({ remaining := removeKey a.remaining f.path,
                     acct := a.acct ++ [(f.path, DiffResult.Mismatch)],
                     calls := a.calls ++ [(f.path, DiffResult.Mismatch)],
                     state := setKey a.state (pathJoin rF f.path) f.content }, none) := by
                rw [hstep0, hcbv]
              refine hcont
                { remaining := removeKey a.remaining f.path,
                  acct := a.acct ++ [(f.path, DiffResult.Mismatch)],
                  calls := a.calls ++ [(f.path, DiffResult.Mismatch)],
                  state := setKey a.state (pathJoin rF f.path) f.content }
                ?_ ?_ ?_ ?_ (by simp only [walkLocals, hstep])
              · intro p
                show lookupKey (removeKey a.remaining f.path) p = _
                rw [lookupKey_removeKey]
              · exact ⟨f.content, by rw [lookupKey_setKey, if_pos rfl], rfl, rfl⟩
              · intro k hk
                show lookupKey (setKey a.state (pathJoin rF f.path) f.content) k = _
                rw [lookupKey_setKey, if_neg hk]
              · exact keys_setKey_nodup _ hstnd
          · have hr : ((uploadCallback (dropboxStore (localStore folder localFiles))
                folder rF) f.path DiffResult.Mismatch a.state).2 = none := by
              rw [hcbv]
            have hstep0 := walkStep_size_mismatch hash
              (uploadCallback (dropboxStore (localStore folder localFiles)) folder rF)
              a f hr hlooksome hsz
            have hstep : walkStep hash none
                (uploadCallback (dropboxStore (localStore folder localFiles)) folder rF)
                a f =
                ({ remaining := removeKey a.remaining f.path,
                   acct := a.acct ++ [(f.path, DiffResult.Mismatch)],
                   calls := a.calls ++ [(f.path, DiffResult.Mismatch)],
                   state := setKey a.state (pathJoin rF f.path) f.content }, none) := by
              rw [hstep0, hcbv]
            refine hcont
              { remaining := removeKey a.remaining f.path,
                acct := a.acct ++ [(f.path, DiffResult.Mismatch)],
                calls := a.calls ++ [(f.path, DiffResult.Mismatch)],
                state := setKey a.state (pathJoin rF f.path) f.content }
              ?_ ?_ ?_ ?_ (by simp only [walkLocals, hstep])
            · intro p
              show lookupKey (removeKey a.remaining f.path) p = _
              rw [lookupKey_removeKey]
            · exact ⟨f.content, by rw [lookupKey_setKey, if_pos rfl], rfl, rfl⟩
            · intro k hk
              show lookupKey (setKey a.state (pathJoin rF f.path) f.content) k = _
              rw [lookupKey_setKey, if_neg hk]
            · exact keys_setKey_nodup _ hstnd

theorem walkLocals_all_match {σ : Type} (hash : Bytes → String)
    (cb : String → DiffResult → σ → σ × Option Err) :
    ∀ (fs : List LocalFile) (a : WalkAcc σ),
    (fs.map LocalFile.path).Nodup →
    (∀ f ∈ fs, ∃ m, lookupKey a.remaining f.path = some m ∧
      m.size = f.content.length ∧ m.contentHash = hash f.content) →
    (walkLocals hash none cb fs a).2 = none ∧
      (walkLocals hash none cb fs a).1.acct =
        a.acct ++ fs.map (fun f => (f.path, DiffResult.Match)) ∧
      (walkLocals hash none cb fs a).1.calls = a.calls ∧
      (walkLocals hash none cb fs a).1.state = a.state ∧
      (∀ p, lookupKey (walkLocals hash none cb fs a).1.remaining p =
        if p ∈ fs.map LocalFile.path then none else lookupKey a.remaining p) := by
  intro fs
  induction fs with
  | nil =>
      intro a _ _
      exact ⟨rfl, by simp [walkLocals], rfl, rfl, fun p => by simp [walkLocals]⟩
  | cons f fs ih =>
      intro a hnd hm
      simp only [List.map_cons, List.nodup_cons] at hnd
      obtain ⟨m, hlook, hsz, hh⟩ := hm f (List.mem_cons_self f fs)
      have hstep := walkStep_hash_match hash cb a f hlook hsz hh
      have hred : walkLocals hash none cb (f :: fs) a =
          walkLocals hash none cb fs
            { remaining := removeKey a.remaining f.path,
              acct := a.acct ++ [(f.path, DiffResult.Match)],
              calls := a.calls,
              state := a.state } := by
        simp only [walkLocals, hstep]
      rw [hred]
      have hm' : ∀ g ∈ fs, ∃ mg,
          lookupKey (removeKey a.remaining f.path) g.path = some mg ∧
            mg.size = g.content.length ∧ mg.contentHash = hash g.content := by
        intro g hg
        obtain ⟨mg, hlg, hs, hhg⟩ := hm g (List.mem_cons_of_mem _ hg)
        refine ⟨mg, ?_, hs, hhg⟩
        rw [lookupKey_removeKey, if_neg ?_]
        · exact hlg
        · intro hc
          exact hnd.1 (hc ▸ List.mem_map_of_mem LocalFile.path hg)
      obtain ⟨e1, e2, e3, e4, e5⟩ := ih
        { remaining := removeKey a.remaining f.path,
          acct := a.acct ++ [(f.path, DiffResult.Match)],
          calls := a.calls,
          state := a.state } hnd.2 hm'
      refine ⟨e1, ?_, e3, e4, ?_⟩
      · rw [e2]
        simp
      · intro p
        rw [e5 p]
        by_cases hp : p ∈ fs.map LocalFile.path
        · simp [hp]
        · simp only [if_neg hp]
          show lookupKey (removeKey a.remaining f.path) p
            = if p ∈ (f :: fs).map LocalFile.path then none else lookupKey a.remaining p
          rw [lookupKey_removeKey]
          by_cases hpf : p = f.path
          · simp [hpf]
          · simp [hpf, hp]

theorem diffCore_synced {σ : Type} (hash : Bytes → String) (rF : String) (hrF : rF ≠ "")
    (localFiles : List LocalFile) (hnd : (localFiles.map LocalFile.path).Nodup)
    (st1 : FileStore)
    (hstnd : (st1.map Prod.fst).Nodup)
    (hwf : ∀ e ∈ st1, ∃ r, e.1 = pathJoin rF r)
    (hG1 : ∀ f ∈ localFiles, ∃ c, lookupKey st1 (pathJoin rF f.path) = some c ∧
      c.length = f.content.length ∧ hash c = hash f.content)
    (hG2 : ∀ k, (lookupKey st1 k).isSome → ∃ f ∈ localFiles, k = pathJoin rF f.path)
    (cb : String → DiffResult → σ → σ × Option Err) (s0 : σ) :
    (walkDiffs hash (Except.ok (inventoryOf hash rF st1)) none localFiles none cb s0).1.acct
        = localFiles.map (fun f => (f.path, DiffResult.Match)) ∧
      (walkDiffs hash (Except.ok (inventoryOf hash rF st1)) none localFiles none cb
        s0).1.calls = [] ∧
      (walkDiffs hash (Except.ok (inventoryOf hash rF st1)) none localFiles none cb
        s0).1.state = s0 ∧
      (walkDiffs hash (Except.ok (inventoryOf hash rF st1)) none localFiles none cb
        s0).2 = none := by
  have hlookinv := lookup_inventory hash rF st1 hrF hstnd hwf
  have hm : ∀ f ∈ localFiles,
      ∃ m, lookupKey (buildRemoteMap (inventoryOf hash rF st1)) f.path = some m ∧
        m.size = f.content.length ∧ m.contentHash = hash f.content := by
    intro f hf
    obtain ⟨c, hc, hcl, hch⟩ := hG1 f hf
    refine ⟨FileMetadata.mk c.length (hash c), ?_, hcl, hch⟩
    rw [hlookinv f.path, hc]
    rfl
  obtain ⟨w1, w2, w3, w4, w5⟩ := walkLocals_all_match hash cb localFiles
    ⟨buildRemoteMap (inventoryOf hash rF st1), [], [], s0⟩ hnd hm
  have hrem2 : (walkLocals hash none cb localFiles
      ⟨buildRemoteMap (inventoryOf hash rF st1), [], [], s0⟩).1.remaining = [] := by
    apply eq_nil_of_lookup_none
    intro p
    rw [w5 p]
    by_cases hp : p ∈ localFiles.map LocalFile.path
    · simp [hp]
    · rw [if_neg hp]
      show lookupKey (buildRemoteMap (inventoryOf hash rF st1)) p = none
      rw [hlookinv p]
      cases hsp : lookupKey st1 (pathJoin rF p) with
      | none => rfl
      | some c =>
          obtain ⟨f, hf, hfp⟩ := hG2 (pathJoin rF p) (by rw [hsp]; rfl)
          have : p = f.path := pathJoin_inj hrF hfp
          exact absurd (this ▸ List.mem_map_of_mem LocalFile.path hf) hp
  have hok : walkDiffs hash (Except.ok (inventoryOf hash rF st1)) none localFiles none cb s0 =
      diffCore hash (buildRemoteMap (inventoryOf hash rF st1)) localFiles none cb s0 := rfl
  rw [hok]
  unfold diffCore
  rcases hw : walkLocals hash none cb localFiles
    ⟨buildRemoteMap (inventoryOf hash rF st1), [], [], s0⟩ with ⟨aw, er⟩
  rw [hw] at w1 w2 w3 w4 hrem2
  simp only at w1 w2 w3 w4 hrem2
  subst w1
  refine ⟨?_, ?_, ?_, ?_⟩
  · show (drainRemaining cb aw.remaining aw).1.acct = _
    rw [hrem2]
    show aw.acct = _
    simpa using w2
  · show (drainRemaining cb aw.remaining aw).1.calls = _
    rw [hrem2]
    exact w3
  · show (drainRemaining cb aw.remaining aw).1.state = _
    rw [hrem2]
    exact w4
  · show (drainRemaining cb aw.remaining aw).2 = none
    rw [hrem2]
    rfl

/-- C5.  Push is idempotent: when `ProjectRepository.Upload` completes
without error against an honestly-listing backend, a re-diff of the same
local tree against the resulting remote store classifies every path as
`Match` (all suppressed — the callback is never invoked at all, whatever
it is), and a second push is a no-op: it performs no upload and no delete
and returns the remote store unchanged. -/
theorem push_idempotent (hash : Bytes → String) (folder remoteFolder : String)
    (localFiles : List LocalFile) (st : FileStore)
    (hfolder : folder ≠ "") (hrF : remoteFolder ≠ "")
    (hnd : (localFiles.map LocalFile.path).Nodup)
    (hstnd : (st.map Prod.fst).Nodup)
    (hwf : ∀ e ∈ st, ∃ r, e.1 = pathJoin remoteFolder r)
    (hok : (ProjectRepositoryUpload hash folder remoteFolder localFiles st).2 = none) :
    (∀ (σ : Type) (cb : String → DiffResult → σ → σ × Option Err) (s0 : σ),
      (walkDiffs hash (Except.ok (inventoryOf hash remoteFolder
          (ProjectRepositoryUpload hash folder remoteFolder localFiles st).1)) none
          localFiles none cb s0).1.acct
          = localFiles.map (fun f => (f.path, DiffResult.Match)) ∧
        (walkDiffs hash (Except.ok (inventoryOf hash remoteFolder
          (ProjectRepositoryUpload hash folder remoteFolder localFiles st).1)) none
          localFiles none cb s0).1.calls = [] ∧
        (walkDiffs hash (Except.ok (inventoryOf hash remoteFolder
          (ProjectRepositoryUpload hash folder remoteFolder localFiles st).1)) none
          localFiles none cb s0).2 = none) ∧
      ProjectRepositoryUpload hash folder remoteFolder localFiles
        (ProjectRepositoryUpload hash folder remoteFolder localFiles st).1 =
        ((ProjectRepositoryUpload hash folder remoteFolder localFiles st).1, none) := by
  clear hok
  have hinv0 : ∀ f ∈ localFiles,
      lookupKey (buildRemoteMap (inventoryOf hash remoteFolder st)) f.path =
        Option.map (fun c => FileMetadata.mk c.length (hash c))
          (lookupKey st (pathJoin remoteFolder f.path)) :=
    fun f _ => lookup_inventory hash remoteFolder st hrF hstnd hwf f.path
  obtain ⟨P0, P1, P2, P3, P4⟩ := walkLocals_push hash hfolder hrF localFiles hnd localFiles
    ⟨buildRemoteMap (inventoryOf hash remoteFolder st), [], [], st⟩
    (fun f hf => hf) hnd (fun f hf => hinv0 f hf) hstnd
  rcases hw : walkLocals hash none
      (uploadCallback (dropboxStore (localStore folder localFiles)) folder remoteFolder)
      localFiles ⟨buildRemoteMap (inventoryOf hash remoteFolder st), [], [], st⟩
    with ⟨aw, er⟩
  rw [hw] at P0 P1 P2 P3 P4
  simp only at P0 P1 P2 P3 P4
  subst P0
  obtain ⟨D1, D2, D3⟩ := drainRemaining_push_state (localStore folder localFiles)
    folder remoteFolder aw.remaining aw
  have hst1 : (ProjectRepositoryUpload hash folder remoteFolder localFiles st).1 =
      (drainRemaining (uploadCallback (dropboxStore (localStore folder localFiles))
        folder remoteFolder) aw.remaining aw).1.state := by
    show (walkDiffs hash (Except.ok (inventoryOf hash remoteFolder st)) none localFiles none
        (uploadCallback (dropboxStore (localStore folder localFiles)) folder remoteFolder)
        st).1.state = _
    have hred : walkDiffs hash (Except.ok (inventoryOf hash remoteFolder st)) none localFiles
        none (uploadCallback (dropboxStore (localStore folder localFiles)) folder remoteFolder)
        st = drainRemaining (uploadCallback (dropboxStore (localStore folder localFiles))
          folder remoteFolder) aw.remaining aw := by
      show diffCore hash (buildRemoteMap (inventoryOf hash remoteFolder st)) localFiles none
        (uploadCallback (dropboxStore (localStore folder localFiles)) folder remoteFolder) st
        = _
      unfold diffCore
      rw [hw]
    rw [hred]
  have hnotrem : ∀ f ∈ localFiles,
      pathJoin remoteFolder f.path ∉
        aw.remaining.map (fun e => pathJoin remoteFolder e.1) := by
    intro f hf hmem
    rcases List.mem_map.mp hmem with ⟨⟨p, m⟩, hpm, hje⟩
    have hpf : p = f.path := pathJoin_inj hrF hje
    have hsome := lookupKey_isSome_of_mem (hpf ▸ hpm : (f.path, m) ∈ aw.remaining)
    rw [P3 f.path, if_pos (List.mem_map_of_mem LocalFile.path hf)] at hsome
    simp at hsome
  have hG1 : ∀ f ∈ localFiles, ∃ c,
      lookupKey (drainRemaining (uploadCallback (dropboxStore (localStore folder localFiles))
        folder remoteFolder) aw.remaining aw).1.state (pathJoin remoteFolder f.path)
        = some c ∧ c.length = f.content.length ∧ hash c = hash f.content := by
    intro f hf
    obtain ⟨c, hc, hcl, hch⟩ := P1 f hf
    refine ⟨c, ?_, hcl, hch⟩
    rw [D2 (pathJoin remoteFolder f.path), if_neg (hnotrem f hf)]
    exact hc
  have hG2 : ∀ k,
      (lookupKey (drainRemaining (uploadCallback (dropboxStore (localStore folder localFiles))
        folder remoteFolder) aw.remaining aw).1.state k).isSome →
      ∃ f ∈ localFiles, k = pathJoin remoteFolder f.path := by
    intro k hk
    rw [D2 k] at hk
    by_cases hmem : k ∈ aw.remaining.map (fun e => pathJoin remoteFolder e.1)
    · rw [if_pos hmem] at hk
      simp at hk
    · rw [if_neg hmem] at hk
      rcases P2 k with hstk | ⟨f, hf, hkf⟩
      · have hkst : (lookupKey st k).isSome := by
          rw [← hstk]
          exact hk
        have hkeys := (lookupKey_isSome_iff_mem_keys st k).mp hkst
        rcases List.mem_map.mp hkeys with ⟨e, he, hek⟩
        obtain ⟨r, hr⟩ := hwf e he
        have hkr : k = pathJoin remoteFolder r := by rw [← hek, hr]
        by_cases hrl : r ∈ localFiles.map LocalFile.path
        · rcases List.mem_map.mp hrl with ⟨f, hf, hfp⟩
          exact ⟨f, hf, by rw [hkr, hfp]⟩
        · exfalso
          have hsome2 : (lookupKey aw.remaining r).isSome := by
            rw [P3 r, if_neg hrl]
            show (lookupKey (buildRemoteMap (inventoryOf hash remoteFolder st)) r).isSome
            rw [lookup_inventory hash remoteFolder st hrF hstnd hwf r, ← hkr]
            cases hlk : lookupKey st k with
            | none => rw [hlk] at hkst; simp at hkst
            | some c => rfl
          cases hlr : lookupKey aw.remaining r with
          | none => rw [hlr] at hsome2; simp at hsome2
          | some m =>
              exact hmem (List.mem_map.mpr ⟨(r, m), mem_of_lookupKey_some hlr, hkr.symm⟩)
      · exact ⟨f, hf, hkf⟩
  have hG3 : (((drainRemaining (uploadCallback (dropboxStore (localStore folder localFiles))
      folder remoteFolder) aw.remaining aw).1.state).map Prod.fst).Nodup := D3 P4
  have hG4 : ∀ e ∈ (drainRemaining (uploadCallback (dropboxStore (localStore folder localFiles))
      folder remoteFolder) aw.remaining aw).1.state, ∃ r, e.1 = pathJoin remoteFolder r := by
    intro e he
    obtain ⟨k, v⟩ := e
    obtain ⟨f, _, hfp⟩ := hG2 k (lookupKey_isSome_of_mem he)
    exact ⟨f.path, hfp⟩
  constructor
  · intro σ cb s0
    obtain ⟨c1, c2, _, c4⟩ := diffCore_synced hash remoteFolder hrF localFiles hnd _
      hG3 hG4 hG1 hG2 cb s0
    rw [hst1]
    exact ⟨c1, c2, c4⟩
  · obtain ⟨_, _, c3, c4⟩ := diffCore_synced hash remoteFolder hrF localFiles hnd _
      hG3 hG4 hG1 hG2
      (uploadCallback (dropboxStore (localStore folder localFiles)) folder remoteFolder)
      ((drainRemaining (uploadCallback (dropboxStore (localStore folder localFiles))
        folder remoteFolder) aw.remaining aw).1.state)
    rw [hst1]
    show ((walkDiffs hash (Except.ok (inventoryOf hash remoteFolder _)) none localFiles none
        (uploadCallback (dropboxStore (localStore folder localFiles)) folder remoteFolder)
        _).1.state,
      (walkDiffs hash (Except.ok (inventoryOf hash remoteFolder _)) none localFiles none
        (uploadCallback (dropboxStore (localStore folder localFiles)) folder remoteFolder)
        _).2) = _
    rw [c3, c4]

theorem push_idempotent_witness :
    ProjectRepositoryUpload (fun _ => "h") "b/p" "/p" [⟨"a", [1]⟩]
        (ProjectRepositoryUpload (fun _ => "h") "b/p" "/p" [⟨"a", [1]⟩] [("/p/c", [2])]).1 =
      ((ProjectRepositoryUpload (fun _ => "h") "b/p" "/p" [⟨"a", [1]⟩] [("/p/c", [2])]).1,
        none) :=
  (push_idempotent (fun _ => "h") "b/p" "/p" [⟨"a", [1]⟩] [("/p/c", [2])]
    (by decide) (by decide) (by decide) (by decide)
    (by
      intro e he
      simp only [List.mem_singleton] at he
      subst he
      exact ⟨"c", by decide⟩)
    (by decide)).2

end GoProj
